import Mathlib

/-!
A verification development for the de Bruijn assembler found in
src/debruijn/debruijn.py.  Reads, k-mers and graph nodes are modelled as
lists of characters; the networkx directed graph is modelled as a record
with a node list and an edge list kept in insertion order, because
networkx iterates nodes, adjacency lists and edge lists in insertion
order.  Machine floats of the reference are modelled by exact rationals,
and the reference test stdev(values) > 0 is modelled by the equivalent
test sampleVariance values > 0, since a square root is positive exactly
when its argument is.  Fallible library calls are modelled with an
explicit error type; Res carries the graph state present when an
exception escapes, because the reference mutates the graph in place and
an escaping exception leaves the graph as it was at the raise point.
The fixed seed draw randint(0, n) performed in the tie branch is
modelled by an abstract function draw : Nat -> Nat standing for the
first output of the freshly reseeded generator on the range 0..n; the
theorems quantify over every such function.
-/

deriving instance DecidableEq for Except

namespace DeBruijn

abbrev Node : Type := List Char

abbrev NPath : Type := List Node

/-- The exceptions that the modelled portions of the reference can raise:
StatisticsError from statistics.stdev and statistics.mean, ValueError from
list.index, IndexError from out of range indexing, NodeNotFound and the
generic NetworkXError from networkx, NameError from reading an unassigned
local variable.  fuelExhausted is an artifact of modelling the unbounded
recursion of the reference with fuel and corresponds to no Python
behaviour; theorems about recursive simplifiers supply enough fuel. -/
inductive Err : Type
  | statisticsError
  | valueError
  | indexError
  | nodeNotFound
  | nameError
  | networkXError
  | fuelExhausted
  deriving DecidableEq

/-- The networkx DiGraph: node list and weighted edge list, both in
insertion order.  An edge (u, v, w) runs from u to v with weight w. -/
structure Graph : Type where
  nodes : List Node
  edges : List (Node × Node × Nat)
  deriving DecidableEq

/-- Result of an operation that mutates the graph in place: either the
final graph, or an escaped exception together with the graph state at the
moment of the raise. -/
inductive Res : Type
  | ok (g : Graph)
  | err (e : Err) (g : Graph)
  deriving DecidableEq

def Res.graph : Res → Graph
  | .ok g => g
  | .err _ g => g

/-- Well-formedness enjoyed by every graph that networkx can actually
represent: nodes are listed once, every edge endpoint is a listed node,
and there is at most one edge entry per ordered node pair. -/
def Graph.WF (g : Graph) : Prop :=
  g.nodes.Nodup ∧
  (∀ e ∈ g.edges, e.1 ∈ g.nodes ∧ e.2.1 ∈ g.nodes) ∧
  (g.edges.map (fun e => (e.1, e.2.1))).Nodup

instance (g : Graph) : Decidable g.WF := by
  unfold Graph.WF; infer_instance

/-- networkx G.successors(u) in adjacency (insertion) order. -/
def successors (g : Graph) (u : Node) : List Node :=
  (g.edges.filter (fun e => decide (e.1 = u))).map (fun e => e.2.1)

/-- networkx G.predecessors(v) in insertion order. -/
def predecessors (g : Graph) (v : Node) : List Node :=
  (g.edges.filter (fun e => decide (e.2.1 = v))).map (fun e => e.1)

/-- The Python slice read[:b] for an arbitrary (possibly negative) bound. -/
def pySliceTo (l : List Char) (b : Int) : List Char :=
  if 0 ≤ b then l.take b.toNat else l.take ((l.length + b).toNat)

/-- cut_kmer (debruijn.py line 81): the generator
for r, _ in enumerate(read[:len(read) - kmer_size + 1]): yield read[r:r+kmer_size]
realised as the list of its yields. -/
def cut_kmer (read : List Char) (kmer_size : Nat) : List (List Char) :=
  (List.range (pySliceTo read ((read.length : Int) - (kmer_size : Int) + 1)).length).map
    (fun r => (read.drop r).take kmer_size)

theorem pySliceTo_nonneg (l : List Char) (b : Int) (hb : 0 ≤ b) :
    pySliceTo l b = l.take b.toNat := by
  unfold pySliceTo; rw [if_pos hb]

/-- Claim C3 (amended): for every read S and positive k with
k ≤ length(S) + 1, cut_kmer yields exactly max(0, length(S) − k + 1)
substrings in left-to-right order (the r-th yield is read[r:r+k]), each of
length exactly k; in particular, for k = length(S) + 1 the yield is empty
and no error is raised.  (For k > length(S) + 1 the claim fails: the
negative slice bound re-exposes a prefix of the read, see the
counterexample.) -/
theorem cut_kmer_c3 (read : List Char) (k : Nat) (h1 : 1 ≤ k)
    (h2 : k ≤ read.length + 1) :
    cut_kmer read k
      = (List.range (read.length + 1 - k)).map (fun r => (read.drop r).take k)
    ∧ (cut_kmer read k).length = read.length + 1 - k
    ∧ (∀ km ∈ cut_kmer read k, km.length = k) := by
  have hb : (0 : Int) ≤ (read.length : Int) - (k : Int) + 1 := by omega
  have htn : ((read.length : Int) - (k : Int) + 1).toNat = read.length + 1 - k := by
    omega
  have hslice : pySliceTo read ((read.length : Int) - (k : Int) + 1)
      = read.take (read.length + 1 - k) := by
    rw [pySliceTo_nonneg _ _ hb, htn]
  have hlen : (read.take (read.length + 1 - k)).length = read.length + 1 - k := by
    rw [List.length_take]; omega
  have hcut : cut_kmer read k
      = (List.range (read.length + 1 - k)).map (fun r => (read.drop r).take k) := by
    unfold cut_kmer
    rw [hslice, hlen]
  refine ⟨hcut, ?_, ?_⟩
  · rw [hcut, List.length_map, List.length_range]
  · intro km hkm
    rw [hcut] at hkm
    rcases List.mem_map.mp hkm with ⟨r, hr, hkm2⟩
    rcases List.mem_range.mp hr with hrlt
    subst hkm2
    rw [List.length_take, List.length_drop]
    omega

theorem cut_kmer_c3_witness :
    cut_kmer ['A', 'C', 'G'] 2
      = (List.range ((['A', 'C', 'G'] : List Char).length + 1 - 2)).map
          (fun r => ((['A', 'C', 'G'] : List Char).drop r).take 2)
    ∧ (cut_kmer ['A', 'C', 'G'] 2).length = (['A', 'C', 'G'] : List Char).length + 1 - 2
    ∧ (∀ km ∈ cut_kmer ['A', 'C', 'G'] 2, km.length = 2) :=
  cut_kmer_c3 ['A', 'C', 'G'] 2 (by decide) (by decide)

/-- Claim C3 counterexample: for read AB (length 2) and k = 4 the claim
predicts max(0, 2 − 4 + 1) = 0 yields, every yield of length 4, and an
empty sequence since k exceeds the read length.  The reference instead
yields the single truncated substring AB, because the slice bound
len(read) − k + 1 = −1 is interpreted by Python as an index from the end
of the read. -/
theorem cut_kmer_c3_cex :
    cut_kmer ['A', 'B'] 4 = [['A', 'B']]
    ∧ ¬ ((cut_kmer ['A', 'B'] 4).length = 0)
    ∧ ¬ (∀ km ∈ cut_kmer ['A', 'B'] 4, km.length = 4) := by
  decide

/-- networkx remove_nodes_from: drop the listed nodes (absent ones are
ignored) and every edge incident to a dropped node. -/
def remove_nodes_from (g : Graph) (l : List Node) : Graph :=
  ⟨g.nodes.filter (fun n => decide (n ∉ l)),
   g.edges.filter (fun e => decide (e.1 ∉ l) && decide (e.2.1 ∉ l))⟩

/-- The sublist of a discarded path whose nodes are removed, per the four
flag combinations of remove_paths (debruijn.py line 105): the whole path,
path[:-1], path[1:], or path[1:-1]. -/
def pathSlice (p : NPath) (delete_entry_node delete_sink_node : Bool) : List Node :=
  if delete_entry_node && delete_sink_node then p
  else if delete_entry_node then p.dropLast
  else if delete_sink_node then p.drop 1
  else (p.drop 1).dropLast

/-- remove_paths (debruijn.py line 105). -/
def remove_paths (g : Graph) (path_list : List NPath)
    (delete_entry_node delete_sink_node : Bool) : Graph :=
  path_list.foldl
    (fun h p => remove_nodes_from h (pathSlice p delete_entry_node delete_sink_node)) g

/-- The sample variance computed by statistics.stdev before the square
root, on exact rationals; statistics.stdev raises StatisticsError on
fewer than two data points.  The reference only ever compares the
standard deviation with zero, and stdev l > 0 iff sampleVariance l > 0. -/
def sampleVariance : List ℚ → Except Err ℚ
  | [] => .error .statisticsError
  | [_] => .error .statisticsError
  | x :: y :: t =>
    let n : ℚ := ((x :: y :: t).length : ℚ)
    let m : ℚ := (x :: y :: t).sum / n
    .ok (((x :: y :: t).map (fun z => (z - m) ^ 2)).sum / (n - 1))

/-- Python max over a list: the maximum value (None stands for the empty
list, where Python would raise; the reference never reaches that case). -/
def listMax {α : Type} [LinearOrder α] : List α → Option α
  | [] => none
  | x :: xs => some (xs.foldl max x)

/-- Python list.index(x): the first position holding x, none when absent
(where Python raises ValueError). -/
def pyIndexAux {α : Type} [DecidableEq α] (x : α) : List α → Option Nat
  | [] => none
  | y :: t => if y = x then some 0 else (pyIndexAux x t).map (fun i => i + 1)

/-- select_best_path (debruijn.py line 118).  The draw argument models
random.seed(9001); random.randint(0, len(path_list)) performed in the
tie branch: it is the first output of the freshly reseeded generator on
the inclusive range 0..n for n = len(path_list).  Note that the drawn
integer is looked up as a value in weight_avg_list by list.index, not
used as a position. -/
def select_best_path (draw : Nat → Nat) (g : Graph) (path_list : List NPath)
    (path_length : List Nat) (weight_avg_list : List ℚ)
    (delete_entry_node delete_sink_node : Bool) : Res :=
  match sampleVariance weight_avg_list with
  | .error e => .err e g
  | .ok vw =>
    if 0 < vw then
      match listMax weight_avg_list with
      | none => .err .valueError g
      | some m =>
        match pyIndexAux m weight_avg_list with
        | none => .err .valueError g
        | some i =>
          if i < path_list.length then
            .ok (remove_paths g (path_list.eraseIdx i) delete_entry_node delete_sink_node)
          else .err .indexError g
    else
      match sampleVariance (path_length.map (fun (a : Nat) => (a : ℚ))) with
      | .error e => .err e g
      | .ok vl =>
        if 0 < vl then
          match listMax path_length with
          | none => .err .valueError g
          | some m =>
            match pyIndexAux m path_length with
            | none => .err .valueError g
            | some i =>
              if i < path_list.length then
                .ok (remove_paths g (path_list.eraseIdx i) delete_entry_node delete_sink_node)
              else .err .indexError g
        else
          match pyIndexAux ((draw path_list.length : Nat) : ℚ) weight_avg_list with
          | none => .err .valueError g
          | some i =>
            if i < path_list.length then
              .ok (remove_paths g (path_list.eraseIdx i) delete_entry_node delete_sink_node)
            else .err .indexError g

theorem list_sum_pos_of_mem {L : List ℚ} (hnn : ∀ x ∈ L, 0 ≤ x) (y : ℚ)
    (hy : y ∈ L) (hypos : 0 < y) : 0 < L.sum := by
  induction L with
  | nil => cases hy
  | cons a t ih =>
    rw [List.sum_cons]
    rcases List.mem_cons.mp hy with h | h
    · subst h
      have h1 : (0 : ℚ) ≤ t.sum :=
        List.sum_nonneg (fun x hx => hnn x (List.mem_cons_of_mem _ hx))
      linarith
    · have ht := ih (fun x hx => hnn x (List.mem_cons_of_mem _ hx)) h
      have h1 := hnn a (List.mem_cons_self _ _)
      linarith

theorem sampleVariance_all_eq {l : List ℚ} {c : ℚ} (h2 : 2 ≤ l.length)
    (hall : ∀ x ∈ l, x = c) : sampleVariance l = .ok 0 := by
  match l, h2 with
  | x :: y :: t, _ =>
    have hn : (0 : ℚ) < ((x :: y :: t).length : ℚ) := by
      have : 0 < (x :: y :: t).length := by simp
      exact_mod_cast this
    have hsum : (x :: y :: t).sum = ((x :: y :: t).length : ℚ) * c := by
      rw [List.sum_eq_card_nsmul _ c hall, nsmul_eq_mul]
    have hm : (x :: y :: t).sum / ((x :: y :: t).length : ℚ) = c := by
      rw [hsum]
      field_simp
    have hz : (((x :: y :: t).map
        (fun z => (z - (x :: y :: t).sum / ((x :: y :: t).length : ℚ)) ^ 2)).sum) = 0 := by
      apply List.sum_eq_zero
      intro q hq
      rcases List.mem_map.mp hq with ⟨z, hzm, hzq⟩
      rw [← hzq, hm, hall z hzm, sub_self]
      ring
    simp only [sampleVariance]
    rw [hz, zero_div]

theorem sampleVariance_pos {l : List ℚ} (h2 : 2 ≤ l.length) {a b : ℚ}
    (ha : a ∈ l) (hb : b ∈ l) (hab : a ≠ b) :
    ∃ v, sampleVariance l = .ok v ∧ 0 < v := by
  match l, h2 with
  | x :: y :: t, _ =>
    set L := x :: y :: t with hL
    have hn : (2 : ℚ) ≤ (L.length : ℚ) := by
      have : 2 ≤ L.length := by simp [hL]
      exact_mod_cast this
    set m : ℚ := L.sum / (L.length : ℚ) with hm
    have hex : ∃ z ∈ L, z ≠ m := by
      by_contra hno
      push_neg at hno
      exact hab ((hno a ha).trans (hno b hb).symm)
    rcases hex with ⟨z, hzL, hzm⟩
    have hnum : 0 < (L.map (fun w => (w - m) ^ 2)).sum := by
      apply list_sum_pos_of_mem ?_ ((z - m) ^ 2)
        (List.mem_map.mpr ⟨z, hzL, rfl⟩)
        (pow_two_pos_of_ne_zero (sub_ne_zero_of_ne hzm))
      intro w hw
      rcases List.mem_map.mp hw with ⟨u, _, hu⟩
      subst hu
      positivity
    refine ⟨(L.map (fun w => (w - m) ^ 2)).sum / ((L.length : ℚ) - 1), ?_, ?_⟩
    · simp only [sampleVariance]
    · apply div_pos hnum
      linarith

theorem foldl_max_mem {α : Type} [LinearOrder α] (l : List α) (a : α) :
    l.foldl max a ∈ a :: l := by
  induction l generalizing a with
  | nil => simp [List.foldl]
  | cons b t ih =>
    rw [List.foldl_cons]
    rcases List.mem_cons.mp (ih (max a b)) with h | h
    · rw [h]
      rcases max_choice a b with hc | hc
      · rw [hc]; exact List.mem_cons_self _ _
      · rw [hc]; exact List.mem_cons_of_mem _ (List.mem_cons_self _ _)
    · exact List.mem_cons_of_mem _ (List.mem_cons_of_mem _ h)

theorem le_foldl_max {α : Type} [LinearOrder α] (l : List α) (a : α) :
    ∀ b ∈ a :: l, b ≤ l.foldl max a := by
  induction l generalizing a with
  | nil =>
    intro b hb
    rcases List.mem_cons.mp hb with h | h
    · subst h; simp [List.foldl]
    · cases h
  | cons c t ih =>
    intro b hb
    rw [List.foldl_cons]
    rcases List.mem_cons.mp hb with h | h
    · subst h
      exact le_trans (le_max_left b c) (ih (max b c) _ (List.mem_cons_self _ _))
    · rcases List.mem_cons.mp h with h2 | h2
      · subst h2
        exact le_trans (le_max_right a b) (ih (max a b) _ (List.mem_cons_self _ _))
      · exact ih (max a c) _ (List.mem_cons_of_mem _ h2)

theorem listMax_unique_strict {α : Type} [LinearOrder α] (l : List α) (i : Nat)
    (hi : i < l.length)
    (hmax : ∀ (j : Nat) (hj : j < l.length), j ≠ i → l.get ⟨j, hj⟩ < l.get ⟨i, hi⟩) :
    listMax l = some (l.get ⟨i, hi⟩) := by
  rcases l with _ | ⟨x, xs⟩
  · simp at hi
  · simp only [listMax]
    have hmem := foldl_max_mem xs x
    rcases List.mem_iff_get.mp hmem with ⟨⟨k, hk⟩, hkeq⟩
    have hle : (x :: xs).get ⟨i, hi⟩ ≤ xs.foldl max x :=
      le_foldl_max xs x _ (List.get_mem _ _ _)
    by_cases hki : k = i
    · subst hki
      rw [← hkeq]
    · have hlt := hmax k hk hki
      rw [hkeq] at hlt
      exact absurd hle (not_le_of_lt hlt)

theorem pyIndexAux_first {α : Type} [DecidableEq α] (l : List α) (x : α) (i : Nat)
    (hi : i < l.length) (hget : l.get ⟨i, hi⟩ = x)
    (hbefore : ∀ (j : Nat) (hj : j < l.length), j < i → l.get ⟨j, hj⟩ ≠ x) :
    pyIndexAux x l = some i := by
  induction l generalizing i with
  | nil => cases hi
  | cons a t ih =>
    cases i with
    | zero =>
      simp only [List.get] at hget
      simp [pyIndexAux, hget]
    | succ n =>
      have ha : a ≠ x := by
        have := hbefore 0 (by simp) (Nat.succ_pos n)
        simpa using this
      have hn : n < t.length := by
        simpa using hi
      have hget2 : t.get ⟨n, hn⟩ = x := by
        simpa using hget
      have hb2 : ∀ (j : Nat) (hj : j < t.length), j < n → t.get ⟨j, hj⟩ ≠ x := by
        intro j hj hjn
        have := hbefore (j + 1) (by simpa using hj) (by omega)
        simpa using this
      simp only [pyIndexAux, if_neg ha]
      rw [ih n hn hget2 hb2]
      rfl

theorem pyIndexAux_not_mem {α : Type} [DecidableEq α] {l : List α} {x : α}
    (hx : x ∉ l) : pyIndexAux x l = none := by
  induction l with
  | nil => rfl
  | cons a t ih =>
    have ha : a ≠ x := by
      intro h; exact hx (h ▸ List.mem_cons_self _ _)
    have ht : x ∉ t := fun h => hx (List.mem_cons_of_mem _ h)
    simp [pyIndexAux, ha, ih ht]

/-- Claim C4: with at least two candidate paths, if the sample standard
deviation of the mean weights is positive then the path with the strictly
maximum mean weight survives (it is removed from the deletion list) and
exactly the other candidates are handed to remove_paths; otherwise, if
the sample standard deviation of the lengths is positive, the path with
the strictly maximum length survives and exactly the others are handed
to remove_paths.  Strict maximality at position i is the hypothesis that
every other entry is smaller; the standard deviation is positive exactly
when two annotated values differ, which follows from that hypothesis. -/
theorem select_best_path_c4 (draw : Nat → Nat) (g : Graph) (path_list : List NPath)
    (path_length : List Nat) (weight_avg_list : List ℚ) (dE dS : Bool)
    (hlw : weight_avg_list.length = path_list.length)
    (hll : path_length.length = path_list.length)
    (h2 : 2 ≤ path_list.length) :
    (∀ (i : Nat) (hi : i < weight_avg_list.length),
        (∀ (j : Nat) (hj : j < weight_avg_list.length), j ≠ i →
          weight_avg_list.get ⟨j, hj⟩ < weight_avg_list.get ⟨i, hi⟩) →
        select_best_path draw g path_list path_length weight_avg_list dE dS
          = .ok (remove_paths g (path_list.eraseIdx i) dE dS))
    ∧ ((∀ a ∈ weight_avg_list, ∀ b ∈ weight_avg_list, a = b) →
       ∀ (i : Nat) (hi : i < path_length.length),
        (∀ (j : Nat) (hj : j < path_length.length), j ≠ i →
          path_length.get ⟨j, hj⟩ < path_length.get ⟨i, hi⟩) →
        select_best_path draw g path_list path_length weight_avg_list dE dS
          = .ok (remove_paths g (path_list.eraseIdx i) dE dS)) := by
  constructor
  · intro i hi hmax
    have hw2 : 2 ≤ weight_avg_list.length := by omega
    -- two distinct members, hence positive variance
    have hj0 : ∃ (j : Nat) (hj : j < weight_avg_list.length), j ≠ i := by
      rcases Nat.eq_zero_or_pos i with h0 | h0
      · exact ⟨1, by omega, by omega⟩
      · exact ⟨0, by omega, by omega⟩
    rcases hj0 with ⟨j, hj, hji⟩
    have hlt := hmax j hj hji
    rcases sampleVariance_pos hw2 (List.get_mem _ _ _) (List.get_mem _ _ _)
      (ne_of_lt hlt) with ⟨v, hv, hvpos⟩
    have hmaxeq := listMax_unique_strict weight_avg_list i hi hmax
    have hidx := pyIndexAux_first weight_avg_list (weight_avg_list.get ⟨i, hi⟩) i hi rfl
      (fun j hj hji => ne_of_lt (hmax j hj (by omega)))
    have hilen : i < path_list.length := by omega
    simp only [select_best_path, hv, if_pos hvpos, hmaxeq, hidx, if_pos hilen]
  · intro hall i hi hmax
    have hw2 : 2 ≤ weight_avg_list.length := by omega
    have hl2 : 2 ≤ path_length.length := by omega
    have hwveq : sampleVariance weight_avg_list = .ok 0 := by
      have hne : weight_avg_list ≠ [] := by
        intro h; rw [h] at hw2; simp at hw2
      apply sampleVariance_all_eq hw2
      intro x hx
      exact hall x hx _ (List.head_mem hne)
    -- positive variance of the cast lengths
    have hj0 : ∃ (j : Nat) (hj : j < path_length.length), j ≠ i := by
      rcases Nat.eq_zero_or_pos i with h0 | h0
      · exact ⟨1, by omega, by omega⟩
      · exact ⟨0, by omega, by omega⟩
    rcases hj0 with ⟨j, hj, hji⟩
    have hlt := hmax j hj hji
    have hmemj : ((path_length.get ⟨j, hj⟩ : Nat) : ℚ)
        ∈ path_length.map (fun (a : Nat) => (a : ℚ)) :=
      List.mem_map.mpr ⟨_, List.get_mem _ _ _, rfl⟩
    have hmemi : ((path_length.get ⟨i, hi⟩ : Nat) : ℚ)
        ∈ path_length.map (fun (a : Nat) => (a : ℚ)) :=
      List.mem_map.mpr ⟨_, List.get_mem _ _ _, rfl⟩
    have hcne : ((path_length.get ⟨j, hj⟩ : Nat) : ℚ)
        ≠ ((path_length.get ⟨i, hi⟩ : Nat) : ℚ) := by
      exact_mod_cast ne_of_lt hlt
    have hcl2 : 2 ≤ (path_length.map (fun (a : Nat) => (a : ℚ))).length := by
      rw [List.length_map]; omega
    rcases sampleVariance_pos hcl2 hmemj hmemi hcne with ⟨v, hv, hvpos⟩
    have hmaxeq := listMax_unique_strict path_length i hi hmax
    have hidx := pyIndexAux_first path_length (path_length.get ⟨i, hi⟩) i hi rfl
      (fun j hj hji => ne_of_lt (hmax j hj (by omega)))
    have hilen : i < path_list.length := by omega
    simp only [select_best_path, hwveq, lt_irrefl, if_false, hv, if_pos hvpos,
      hmaxeq, hidx, if_pos hilen]

theorem select_best_path_c4_witness :
    (select_best_path (fun _ => 0) ⟨[['x']], []⟩ [[['x']], [['y']], [['z']]]
        [3, 3, 3] [5, 5, 9] false false
      = .ok (remove_paths ⟨[['x']], []⟩ ([[['x']], [['y']], [['z']]].eraseIdx 2)
          false false))
    ∧ (select_best_path (fun _ => 0) ⟨[['x']], []⟩ [[['x']], [['y']], [['z']]]
        [3, 5, 3] [4, 4, 4] false false
      = .ok (remove_paths ⟨[['x']], []⟩ ([[['x']], [['y']], [['z']]].eraseIdx 1)
          false false)) := by
  constructor
  · refine (select_best_path_c4 (fun _ => 0) ⟨[['x']], []⟩ [[['x']], [['y']], [['z']]]
      [3, 3, 3] [5, 5, 9] false false (by decide) (by decide) (by decide)).1 2
      (by decide) ?_
    intro j hj hne
    match j, hj with
    | 0, _ => norm_num [List.get]
    | 1, _ => norm_num [List.get]
    | 2, _ => exact absurd rfl hne
  · refine (select_best_path_c4 (fun _ => 0) ⟨[['x']], []⟩ [[['x']], [['y']], [['z']]]
      [3, 5, 3] [4, 4, 4] false false (by decide) (by decide) (by decide)).2
      (by simp) 1 (by decide) ?_
    intro j hj hne
    match j, hj with
    | 0, _ => norm_num [List.get]
    | 1, _ => exact absurd rfl hne
    | 2, _ => norm_num [List.get]

/-- General description of the full-tie branch of select_best_path, used
by the claim C1 theorem and counterexample below. -/
theorem select_best_path_full_tie (draw : Nat → Nat) (g : Graph)
    (path_list : List NPath) (path_length : List Nat) (weight_avg_list : List ℚ)
    (dE dS : Bool)
    (hlw : weight_avg_list.length = path_list.length)
    (h2 : 2 ≤ path_list.length)
    (hl2 : 2 ≤ path_length.length)
    (hwt : ∀ a ∈ weight_avg_list, ∀ b ∈ weight_avg_list, a = b)
    (hlt : ∀ a ∈ path_length, ∀ b ∈ path_length, a = b) :
    (((draw path_list.length : Nat) : ℚ) ∈ weight_avg_list →
        select_best_path draw g path_list path_length weight_avg_list dE dS
          = .ok (remove_paths g (path_list.eraseIdx 0) dE dS))
    ∧ (((draw path_list.length : Nat) : ℚ) ∉ weight_avg_list →
        select_best_path draw g path_list path_length weight_avg_list dE dS
          = .err .valueError g) := by
  have hw2 : 2 ≤ weight_avg_list.length := by omega
  have hwne : weight_avg_list ≠ [] := by
    intro h; rw [h] at hw2; simp at hw2
  have hlne : path_length ≠ [] := by
    intro h; rw [h] at hl2; simp at hl2
  have hwveq : sampleVariance weight_avg_list = .ok 0 :=
    sampleVariance_all_eq hw2 (fun x hx => hwt x hx _ (List.head_mem hwne))
  have hlveq : sampleVariance (path_length.map (fun (a : Nat) => (a : ℚ))) = .ok 0 := by
    apply sampleVariance_all_eq (by rw [List.length_map]; omega)
    intro x hx
    rcases List.mem_map.mp hx with ⟨u, hu, hux⟩
    have h1 := hlt u hu _ (List.head_mem hlne)
    rw [← hux, h1]
  constructor
  · intro hmem
    have hidx : pyIndexAux ((draw path_list.length : Nat) : ℚ) weight_avg_list
        = some 0 := by
      match weight_avg_list, hwne with
      | w :: ws, _ =>
        have : w = ((draw path_list.length : Nat) : ℚ) :=
          hwt w (List.mem_cons_self _ _) _ hmem
        simp [pyIndexAux, this]
    have h0 : 0 < path_list.length := by omega
    simp only [select_best_path, hwveq, lt_irrefl, if_false, hlveq, hidx, if_pos h0]
  · intro hmem
    have hidx := pyIndexAux_not_mem hmem
    simp only [select_best_path, hwveq, lt_irrefl, if_false, hlveq, hidx]

/-- Claim C1 (amended): on a full tie (all mean weights equal and all
lengths equal, at least two candidates) the reference reseeds the
generator and draws an integer v in the inclusive range 0..n for
n = len(path_list), then looks v up as a value in the mean-weight list
with list.index.  If the common mean weight equals v, the candidate at
the first index (index 0, since all weights are equal) is kept and the
other n − 1 candidates are handed to remove_paths, so n − 1 paths are
discarded, not one; otherwise list.index raises ValueError and the graph
is left untouched.  The original claim (exactly one candidate removed and
no error possible) fails, see the counterexample. -/
theorem select_best_path_c1_amended (draw : Nat → Nat) (g : Graph)
    (path_list : List NPath) (path_length : List Nat) (weight_avg_list : List ℚ)
    (dE dS : Bool)
    (hlw : weight_avg_list.length = path_list.length)
    (h2 : 2 ≤ path_list.length)
    (hl2 : 2 ≤ path_length.length)
    (hwt : ∀ a ∈ weight_avg_list, ∀ b ∈ weight_avg_list, a = b)
    (hlt : ∀ a ∈ path_length, ∀ b ∈ path_length, a = b) :
    (((draw path_list.length : Nat) : ℚ) ∈ weight_avg_list →
        select_best_path draw g path_list path_length weight_avg_list dE dS
          = .ok (remove_paths g (path_list.eraseIdx 0) dE dS))
    ∧ (((draw path_list.length : Nat) : ℚ) ∉ weight_avg_list →
        select_best_path draw g path_list path_length weight_avg_list dE dS
          = .err .valueError g) :=
  select_best_path_full_tie draw g path_list path_length weight_avg_list
    dE dS hlw h2 hl2 hwt hlt

theorem select_best_path_c1_witness :
    ((7 : ℚ) ∈ ([7, 7] : List ℚ)
      ∧ select_best_path (fun _ => 7) ⟨[['x']], []⟩ [[['x']], [['y']]]
          [3, 3] [7, 7] false false
        = .ok (remove_paths ⟨[['x']], []⟩ ([[['x']], [['y']]].eraseIdx 0)
            false false)) :=
  ⟨by norm_num,
   (select_best_path_c1_amended (fun _ => 7) ⟨[['x']], []⟩ [[['x']], [['y']]]
      [3, 3] [7, 7] false false (by decide) (by decide) (by decide)
      (by simp) (by simp)).1 (by norm_num)⟩

/-- Claim C1 counterexample: two candidate paths with equal mean weights
5/2 and equal lengths 3.  The draw randint(0, len(path_list)) can only
produce 0, 1 or 2, and none of these integers equals the common mean
weight 5/2, so list.index raises ValueError for every possible value of
the fixed-seed draw: no candidate is removed and an error is raised,
contradicting the claim that exactly one candidate is removed and no
error is raised. -/
theorem select_best_path_c1_cex :
    (select_best_path (fun _ => 0) ⟨[['x']], []⟩ [[['x']], [['y']]]
        [3, 3] [5/2, 5/2] false false
      = .err .valueError ⟨[['x']], []⟩)
    ∧ (select_best_path (fun _ => 1) ⟨[['x']], []⟩ [[['x']], [['y']]]
        [3, 3] [5/2, 5/2] false false
      = .err .valueError ⟨[['x']], []⟩)
    ∧ (select_best_path (fun _ => 2) ⟨[['x']], []⟩ [[['x']], [['y']]]
        [3, 3] [5/2, 5/2] false false
      = .err .valueError ⟨[['x']], []⟩) := by
  refine ⟨?_, ?_, ?_⟩ <;>
    exact (select_best_path_full_tie _ ⟨[['x']], []⟩ [[['x']], [['y']]]
      [3, 3] [5/2, 5/2] false false (by decide) (by decide) (by decide)
      (by simp) (by simp)).2 (by norm_num)

/-- The edge relation of a graph. -/
def edgeRel (g : Graph) (u v : Node) : Prop := ∃ c, (u, v, c) ∈ g.edges

/-- Reachability: reflexive transitive closure of the edge relation.
This is the semantic meaning of networkx has_path. -/
def Reach (g : Graph) : Node → Node → Prop := Relation.ReflTransGen (edgeRel g)

theorem mem_successors {g : Graph} {u w : Node} :
    w ∈ successors g u ↔ edgeRel g u w := by
  unfold successors edgeRel
  constructor
  · intro h
    rcases List.mem_map.mp h with ⟨e, he, hew⟩
    rcases List.mem_filter.mp he with ⟨hmem, hdec⟩
    have h1 : e.1 = u := of_decide_eq_true hdec
    rcases e with ⟨a, b, c⟩
    simp only at h1 hew
    subst h1
    subst hew
    exact ⟨c, hmem⟩
  · rintro ⟨c, hc⟩
    apply List.mem_map.mpr
    exact ⟨(u, w, c), List.mem_filter.mpr ⟨hc, by simp⟩, rfl⟩

theorem mem_predecessors {g : Graph} {v u : Node} :
    u ∈ predecessors g v ↔ edgeRel g u v := by
  unfold predecessors edgeRel
  constructor
  · intro h
    rcases List.mem_map.mp h with ⟨e, he, hew⟩
    rcases List.mem_filter.mp he with ⟨hmem, hdec⟩
    have h1 : e.2.1 = v := of_decide_eq_true hdec
    rcases e with ⟨a, b, c⟩
    simp only at h1 hew
    subst h1
    subst hew
    exact ⟨c, hmem⟩
  · rintro ⟨c, hc⟩
    apply List.mem_map.mpr
    exact ⟨(u, v, c), List.mem_filter.mpr ⟨hc, by simp⟩, rfl⟩

/-- Fuel-bounded reachability test; with fuel = number of graph nodes it
decides Reach (lemma reachN_iff_reach below), which is the observable
behaviour of networkx has_path. -/
def reachN (g : Graph) : Nat → Node → Node → Bool
  | 0, u, v => decide (u = v)
  | f + 1, u, v => decide (u = v) || (successors g u).any (fun w => reachN g f w v)

theorem reachN_refl (g : Graph) (f : Nat) (u : Node) : reachN g f u u = true := by
  cases f <;> simp [reachN]

theorem reachN_sound {g : Graph} {f : Nat} {u v : Node}
    (h : reachN g f u v = true) : Reach g u v := by
  induction f generalizing u with
  | zero =>
    simp only [reachN, decide_eq_true_eq] at h
    exact h ▸ Relation.ReflTransGen.refl
  | succ f ih =>
    simp only [reachN, Bool.or_eq_true, decide_eq_true_eq, List.any_eq_true] at h
    rcases h with h | ⟨w, hw, hr⟩
    · exact h ▸ Relation.ReflTransGen.refl
    · exact Relation.ReflTransGen.head (mem_successors.mp hw) (ih hr)

/-- A walk from u to v: an edge chain whose node list is u :: p and whose
last node is v. -/
def IsWalk (g : Graph) (u v : Node) (p : List Node) : Prop :=
  List.Chain (edgeRel g) u p ∧ (u :: p).getLast? = some v

theorem reachN_of_walk {g : Graph} :
    ∀ (p : List Node) (u v : Node) (f : Nat), IsWalk g u v p →
      p.length ≤ f → reachN g f u v = true := by
  intro p
  induction p with
  | nil =>
    intro u v f hw _
    rcases hw with ⟨_, hlast⟩
    simp only [List.getLast?_singleton, Option.some.injEq] at hlast
    exact hlast ▸ reachN_refl g f u
  | cons c q ih =>
    intro u v f hw hlen
    rcases hw with ⟨hchain, hlast⟩
    rcases List.chain_cons.mp hchain with ⟨hedge, hchain2⟩
    cases f with
    | zero => simp at hlen
    | succ f =>
      have hlast2 : (c :: q).getLast? = some v := by
        rw [← hlast, List.getLast?_cons_cons]
      have hrec := ih c v f ⟨hchain2, hlast2⟩ (by simpa using hlen)
      simp only [reachN, Bool.or_eq_true, decide_eq_true_eq, List.any_eq_true]
      exact Or.inr ⟨c, mem_successors.mpr hedge, hrec⟩

theorem reach_exists_walk {g : Graph} {u v : Node} (h : Reach g u v) :
    ∃ p, IsWalk g u v p := by
  rcases List.exists_chain_of_relationReflTransGen h with ⟨l, hl1, hl2⟩
  refine ⟨l, hl1, ?_⟩
  rw [List.getLast?_eq_getLast _ (List.cons_ne_nil _ _), hl2]

theorem chain_mem_nodes {g : Graph}
    (hedges : ∀ e ∈ g.edges, e.1 ∈ g.nodes ∧ e.2.1 ∈ g.nodes) :
    ∀ (p : List Node) (u : Node), List.Chain (edgeRel g) u p →
      ∀ x ∈ p, x ∈ g.nodes := by
  intro p
  induction p with
  | nil => intro u _ x hx; cases hx
  | cons c q ih =>
    intro u hchain x hx
    rcases List.chain_cons.mp hchain with ⟨⟨w, hw⟩, hchain2⟩
    rcases List.mem_cons.mp hx with h | h
    · subst h; exact (hedges _ hw).2
    · exact ih c hchain2 x h

/-- Every walk can be shortened to a walk visiting each node at most once. -/
theorem exists_nodup_walk_aux {g : Graph} :
    ∀ (n : Nat) (p : List Node) (u v : Node), p.length ≤ n →
      IsWalk g u v p →
      ∃ q, IsWalk g u v q ∧ (u :: q).Nodup ∧ q ⊆ p := by
  intro n
  induction n with
  | zero =>
    intro p u v hlen hw
    have hp : p = [] := List.length_eq_zero.mp (Nat.le_zero.mp hlen)
    subst hp
    exact ⟨[], hw, List.nodup_singleton u, List.Subset.refl _⟩
  | succ n ihn =>
    intro p u v hlen hw
    rcases hw with ⟨hchain, hlast⟩
    by_cases hu : u ∈ p
    · rcases List.append_of_mem hu with ⟨s, t, hst⟩
      subst hst
      have hchain2 : List.Chain (edgeRel g) u t :=
        (List.chain_split.mp hchain).2
      have hlast2 : (u :: t).getLast? = some v := by
        have hassoc : u :: (s ++ u :: t) = (u :: s) ++ u :: t := by simp
        rw [hassoc] at hlast
        rcases List.getLast?_append_cons (u :: s) u t ▸ hlast with h
        exact h
      have hlen2 : t.length ≤ n := by
        rw [List.length_append, List.length_cons] at hlen
        omega
      rcases ihn t u v hlen2 ⟨hchain2, hlast2⟩ with ⟨q, hq1, hq2, hq3⟩
      refine ⟨q, hq1, hq2, ?_⟩
      intro x hx
      exact List.mem_append_right s (List.mem_cons_of_mem u (hq3 hx))
    · cases p with
      | nil => exact ⟨[], ⟨hchain, hlast⟩, List.nodup_singleton u, List.Subset.refl _⟩
      | cons c q0 =>
        rcases List.chain_cons.mp hchain with ⟨hedge, hchain2⟩
        have hlast2 : (c :: q0).getLast? = some v := by
          rw [← hlast, List.getLast?_cons_cons]
        have hlen2 : q0.length ≤ n := by
          simp only [List.length_cons] at hlen
          omega
        rcases ihn q0 c v hlen2 ⟨hchain2, hlast2⟩ with ⟨q, ⟨hqc, hql⟩, hq2, hq3⟩
        refine ⟨c :: q, ⟨List.chain_cons.mpr ⟨hedge, hqc⟩, ?_⟩, ?_, ?_⟩
        · rw [← hql, List.getLast?_cons_cons]
        · refine List.nodup_cons.mpr ⟨?_, hq2⟩
          intro hmem
          rcases List.mem_cons.mp hmem with h | h
          · exact hu (h ▸ List.mem_cons_self _ _)
          · exact hu (List.mem_cons_of_mem _ (hq3 h))
        · intro x hx
          rcases List.mem_cons.mp hx with h | h
          · exact h ▸ List.mem_cons_self _ _
          · exact List.mem_cons_of_mem _ (hq3 h)

theorem exists_nodup_walk {g : Graph} {u v : Node} (h : Reach g u v) :
    ∃ p, IsWalk g u v p ∧ (u :: p).Nodup := by
  rcases reach_exists_walk h with ⟨p, hp⟩
  rcases exists_nodup_walk_aux p.length p u v (le_refl _) hp with ⟨q, hq1, hq2, _⟩
  exact ⟨q, hq1, hq2⟩

theorem nodup_list_length_le {l m : List Node} (hnd : l.Nodup)
    (hsub : ∀ x ∈ l, x ∈ m) : l.length ≤ m.length := by
  calc l.length = l.toFinset.card := (List.toFinset_card_of_nodup hnd).symm
    _ ≤ m.toFinset.card := by
        apply Finset.card_le_card
        intro x hx
        exact List.mem_toFinset.mpr (hsub x (List.mem_toFinset.mp hx))
    _ ≤ m.length := m.toFinset_card_le

theorem reach_reachN {g : Graph}
    (hedges : ∀ e ∈ g.edges, e.1 ∈ g.nodes ∧ e.2.1 ∈ g.nodes)
    {u v : Node} (hu : u ∈ g.nodes) (h : Reach g u v) :
    reachN g g.nodes.length u v = true := by
  rcases exists_nodup_walk h with ⟨p, hp, hnd⟩
  have hsub : ∀ x ∈ u :: p, x ∈ g.nodes := by
    intro x hx
    rcases List.mem_cons.mp hx with h1 | h1
    · exact h1 ▸ hu
    · exact chain_mem_nodes hedges p u hp.1 x h1
  have hlen := nodup_list_length_le hnd hsub
  apply reachN_of_walk p u v g.nodes.length hp
  simp only [List.length_cons] at hlen
  omega

/-- With fuel = node count, the bounded test decides reachability. -/
theorem reachN_iff_reach {g : Graph}
    (hedges : ∀ e ∈ g.edges, e.1 ∈ g.nodes ∧ e.2.1 ∈ g.nodes)
    {u v : Node} (hu : u ∈ g.nodes) :
    reachN g g.nodes.length u v = true ↔ Reach g u v :=
  ⟨reachN_sound, reach_reachN hedges hu⟩

/-- Core DFS of networkx all_simple_paths: the simple paths from u to t
whose nodes avoid visited, children explored in adjacency order, exactly
the emission order of the networkx generator.  fuel bounds the node count
of a path; with fuel = node count every simple path is found. -/
def aspAux (g : Graph) (t : Node) : Nat → Node → List Node → List (List Node)
  | 0, _, _ => []
  | f + 1, u, visited =>
    if u = t then [[t]]
    else
      ((successors g u).filter (fun w => decide (w ∉ u :: visited))).flatMap
        (fun w => (aspAux g t f w (u :: visited)).map (fun q => u :: q))

/-- networkx all_simple_paths(G, s, t) for endpoints present in the
graph; when source equals target networkx returns an empty generator. -/
def all_simple_paths (g : Graph) (s t : Node) : List NPath :=
  if s = t then [] else aspAux g t g.nodes.length s []

/-- all_simple_paths including the NodeNotFound check done by networkx. -/
def all_simple_pathsE (g : Graph) (s t : Node) : Except Err (List NPath) :=
  if decide (s ∈ g.nodes) && decide (t ∈ g.nodes) then .ok (all_simple_paths g s t)
  else .error .nodeNotFound

/-- networkx has_path(G, s, t): NodeNotFound when either endpoint is
missing from the graph, otherwise a reachability test. -/
def hasPathE (g : Graph) (s t : Node) : Except Err Bool :=
  if decide (s ∈ g.nodes) && decide (t ∈ g.nodes) then
    .ok (reachN g g.nodes.length s t)
  else .error .nodeNotFound

theorem aspAux_sound {g : Graph} {t : Node} :
    ∀ (f : Nat) (u : Node) (visited : List Node) (p : List Node),
      p ∈ aspAux g t f u visited →
      List.Chain' (edgeRel g) p ∧ p.head? = some u ∧ p.getLast? = some t := by
  intro f
  induction f with
  | zero => intro u visited p hp; cases hp
  | succ f ih =>
    intro u visited p hp
    by_cases hu : u = t
    · subst hu
      simp only [aspAux, if_pos rfl, if_true, eq_self_iff_true, List.mem_singleton] at hp
      subst hp
      exact ⟨List.chain'_singleton _, rfl, rfl⟩
    · simp only [aspAux, if_neg hu] at hp
      rcases List.mem_flatMap.mp hp with ⟨w, hwmem, hpw⟩
      rcases List.mem_map.mp hpw with ⟨q, hq, hpq⟩
      rcases ih w (u :: visited) q hq with ⟨hchain, hhead, hlast⟩
      rcases List.mem_filter.mp hwmem with ⟨hwsucc, _⟩
      have hedge : edgeRel g u w := mem_successors.mp hwsucc
      subst hpq
      rcases q with _ | ⟨w2, q2⟩
      · cases hhead
      · have hw2 : w2 = w := by
          simpa using hhead
        subst hw2
        refine ⟨?_, rfl, ?_⟩
        · exact List.chain'_cons.mpr ⟨hedge, hchain⟩
        · rw [List.getLast?_cons_cons]
          exact hlast

theorem aspAux_complete {g : Graph} {t : Node} :
    ∀ (q : List Node) (f : Nat) (u : Node) (visited : List Node),
      IsWalk g u t q → (u :: q).Nodup → (∀ x ∈ u :: q, x ∉ visited) →
      q.length + 1 ≤ f →
      aspAux g t f u visited ≠ [] := by
  intro q
  induction q with
  | nil =>
    intro f u visited hw _ _ hf
    rcases hw with ⟨_, hlast⟩
    simp only [List.getLast?_singleton, Option.some.injEq] at hlast
    cases f with
    | zero => omega
    | succ f =>
      subst hlast
      simp [aspAux]
  | cons c q0 ih =>
    intro f u visited hw hnd havoid hf
    rcases hw with ⟨hchain, hlast⟩
    rcases List.chain_cons.mp hchain with ⟨hedge, hchain2⟩
    have hlast2 : (c :: q0).getLast? = some t := by
      rw [← hlast, List.getLast?_cons_cons]
    have htmem : t ∈ c :: q0 := by
      rcases List.mem_getLast?_eq_getLast (show t ∈ (c :: q0).getLast? from hlast2)
        with ⟨hne, heq⟩
      rw [heq]
      exact List.getLast_mem hne
    have hut : u ≠ t := by
      intro h
      subst h
      exact (List.nodup_cons.mp hnd).1 htmem
    cases f with
    | zero => omega
    | succ f =>
      simp only [aspAux, if_neg hut]
      have hcfilter : c ∈ (successors g u).filter (fun w => decide (w ∉ u :: visited)) := by
        apply List.mem_filter.mpr
        refine ⟨mem_successors.mpr hedge, ?_⟩
        apply decide_eq_true
        intro hmem
        rcases List.mem_cons.mp hmem with h | h
        · exact (List.nodup_cons.mp hnd).1 (h ▸ List.mem_cons_self _ _)
        · exact havoid c (List.mem_cons_of_mem _ (List.mem_cons_self _ _)) h
      have hrec : aspAux g t f c (u :: visited) ≠ [] := by
        apply ih f c (u :: visited) ⟨hchain2, hlast2⟩ (List.nodup_cons.mp hnd).2
        · intro x hx hmem
          rcases List.mem_cons.mp hmem with h | h
          · exact (List.nodup_cons.mp hnd).1 (h ▸ hx)
          · exact havoid x (List.mem_cons_of_mem _ hx) h
        · simp only [List.length_cons] at hf
          omega
      rcases List.exists_mem_of_ne_nil _ hrec with ⟨y, hy⟩
      exact List.ne_nil_of_mem
        (List.mem_flatMap.mpr ⟨c, hcfilter, List.mem_map.mpr ⟨y, hy, rfl⟩⟩)

theorem all_simple_paths_sound {g : Graph} {s t : Node} {p : List Node}
    (hp : p ∈ all_simple_paths g s t) :
    List.Chain' (edgeRel g) p ∧ p.head? = some s ∧ p.getLast? = some t := by
  unfold all_simple_paths at hp
  by_cases hst : s = t
  · rw [if_pos hst] at hp; cases hp
  · rw [if_neg hst] at hp
    exact aspAux_sound _ s [] p hp

theorem all_simple_paths_nonempty {g : Graph}
    (hedges : ∀ e ∈ g.edges, e.1 ∈ g.nodes ∧ e.2.1 ∈ g.nodes)
    {s t : Node} (hs : s ∈ g.nodes) (hst : s ≠ t) (h : Reach g s t) :
    all_simple_paths g s t ≠ [] := by
  unfold all_simple_paths
  rw [if_neg hst]
  rcases exists_nodup_walk h with ⟨p, hp, hnd⟩
  have hsub : ∀ x ∈ s :: p, x ∈ g.nodes := by
    intro x hx
    rcases List.mem_cons.mp hx with h1 | h1
    · exact h1 ▸ hs
    · exact chain_mem_nodes hedges p s hp.1 x h1
  have hlen := nodup_list_length_le hnd hsub
  apply aspAux_complete p g.nodes.length s [] hp hnd (by simp)
  simp only [List.length_cons] at hlen
  omega

/-- The edge list of the induced subgraph graph.subgraph(path): every
graph edge with both endpoints among the path nodes, chords included. -/
def inducedEdges (g : Graph) (p : NPath) : List (Node × Node × Nat) :=
  g.edges.filter (fun e => decide (e.1 ∈ p) && decide (e.2.1 ∈ p))

/-- path_average_weight (debruijn.py line 135): statistics.mean of the
weights of the induced subgraph on the path nodes; StatisticsError on an
empty edge list. -/
def path_average_weight (g : Graph) (p : NPath) : Except Err ℚ :=
  if (inducedEdges g p).isEmpty then .error .statisticsError
  else .ok (((inducedEdges g p).map (fun d => (d.2.2 : ℚ))).sum
    / ((inducedEdges g p).length : ℚ))

/-- Modelled from the claim wording of C6: exactly the graph edges that
join consecutive node pairs of the path.  This is the refinement-side
definition, to be compared with the induced-subgraph edges used by the
reference. -/
def consecEdges (g : Graph) (p : NPath) : List (Node × Node × Nat) :=
  g.edges.filter (fun e => decide ((e.1, e.2.1) ∈ p.zip (p.drop 1)))

/-- Modelled from the claim wording of C6: the mean weight over exactly
the consecutive-pair edges of the path. -/
def claim_path_weight (g : Graph) (p : NPath) : Except Err ℚ :=
  if (consecEdges g p).isEmpty then .error .statisticsError
  else .ok (((consecEdges g p).map (fun d => (d.2.2 : ℚ))).sum
    / ((consecEdges g p).length : ℚ))

/-- The candidate collection of solve_bubble (debruijn.py lines 140 to
144): the enumerated simple paths, their lengths and mean weights, built
in step as the reference loop does. -/
def bubble_candidates (g : Graph) (a d : Node) :
    Except Err (List NPath × List Nat × List ℚ) :=
  match all_simple_pathsE g a d with
  | .error e => .error e
  | .ok ps =>
    match ps.mapM (path_average_weight g) with
    | .error e => .error e
    | .ok ws => .ok (ps, ps.map List.length, ws)

/-- solve_bubble (debruijn.py line 139).  The ancestor is an Option
because simplify_bubbles can hand over the Python value None, on which
nx.all_simple_paths raises NodeNotFound. -/
def solve_bubble (draw : Nat → Nat) (g : Graph) (anc : Option Node) (d : Node) : Res :=
  match anc with
  | none => .err .nodeNotFound g
  | some a =>
    match bubble_candidates g a d with
    | .error e => .err e g
    | .ok (ps, ls, ws) => select_best_path draw g ps ls ws false false

/-- Reflexive reachability test used for ancestor computations. -/
def reachB (g : Graph) (a b : Node) : Bool := reachN g g.nodes.length a b

/-- The common ancestors of i and j: nodes from which both are reachable
(every node counts as its own ancestor here, as in networkx). -/
def commonAncestors (g : Graph) (i j : Node) : List Node :=
  g.nodes.filter (fun a => reachB g a i && reachB g a j)

def isLowestCA (g : Graph) (i j a : Node) : Bool :=
  (commonAncestors g i j).all (fun b => decide (b = a) || !(reachB g a b))

def hasCycleB (g : Graph) : Bool :=
  g.nodes.any (fun n => (successors g n).any (fun v => reachB g v n))

/-- networkx lowest_common_ancestor(G, i, j, default=None): raises
NetworkXError on a graph with a directed cycle, raises NodeNotFound on a
missing endpoint, returns None when the pair has no common ancestor and
otherwise some lowest common ancestor.  networkx leaves the choice among
several lowest common ancestors unspecified; the model picks the first in
node order, and no theorem below depends on that choice. -/
def lcaE (g : Graph) (i j : Node) : Except Err (Option Node) :=
  if hasCycleB g then .error .networkXError
  else if decide (i ∈ g.nodes) && decide (j ∈ g.nodes) then
    .ok ((commonAncestors g i j).filter (fun a => isLowestCA g i j a)).head?
  else .error .nodeNotFound

/-- The inner j-loop of simplify_bubbles for a fixed predecessor i: walks
the trailing predecessors, storing every LCA result into the ancestor
variable, and breaks at the first hit. -/
def scan_inner (g : Graph) (i : Node) : List Node → Option Node → Bool →
    Except Err (Option Node × Bool)
  | [], anc, b => .ok (anc, b)
  | j :: js, anc, b =>
    match lcaE g i j with
    | .error e => .error e
    | .ok a => if a.isSome then .ok (a, true) else scan_inner g i js a b

/-- The enumerate loop over predecessor pairs of simplify_bubbles: the
break above only leaves the j-loop, so the i-loop continues and can
overwrite the ancestor variable again. -/
def scan_pairs (g : Graph) : List Node → Option Node → Bool →
    Except Err (Option Node × Bool)
  | [], anc, b => .ok (anc, b)
  | i :: rest, anc, b =>
    match scan_inner g i rest anc b with
    | .error e => .error e
    | .ok (anc2, b2) => scan_pairs g rest anc2 b2

/-- The node scan of simplify_bubbles (debruijn.py lines 152 to 164) with
the state variables bubble, ancestor_node and noeud_n threaded
explicitly; returns the arguments passed to solve_bubble when a bubble
was detected.  The reference quirks are modelled faithfully: noeud_n is
reassigned at every node with more than one predecessor, the scan stops
only when it meets a node with at most one predecessor after bubble was
set (the elif break), and ancestor_node keeps the result of the last LCA
computation, which can be None. -/
def scan_nodes (g : Graph) : List Node → Bool → Option Node → Option Node →
    Except Err (Option (Option Node × Node))
  | [], b, anc, noeud =>
    if b then
      match noeud with
      | some n => .ok (some (anc, n))
      | none => .error .nameError
    else .ok none
  | n :: rest, b, anc, noeud =>
    if 1 < (predecessors g n).length then
      match scan_pairs g (predecessors g n) anc b with
      | .error e => .error e
      | .ok (anc2, b2) => scan_nodes g rest b2 anc2 (some n)
    else if b then
      match noeud with
      | some m => .ok (some (anc, m))
      | none => .error .nameError
    else scan_nodes g rest b anc noeud

def scan_bubbles (g : Graph) : Except Err (Option (Option Node × Node)) :=
  scan_nodes g g.nodes false none none

/-- simplify_bubbles (debruijn.py line 151): resolve the scan result and
recurse on the mutated graph; fuel-bounded form of the reference
recursion. -/
def simplify_bubbles (draw : Nat → Nat) : Nat → Graph → Res
  | 0, g => .err .fuelExhausted g
  | f + 1, g =>
    match scan_bubbles g with
    | .error e => .err e g
    | .ok none => .ok g
    | .ok (some (anc, n)) =>
      match solve_bubble draw g anc n with
      | .ok g2 => simplify_bubbles draw f g2
      | r => r

/-- The candidate collection of solve_entry_tips at a node n: for every
starting node, test has_path and record the first enumerated simple path
from it to n along with its length and mean weight. -/
def collect_entry (g : Graph) (n : Node) : List Node →
    Except Err (List NPath × List Nat × List ℚ)
  | [] => .ok ([], [], [])
  | s :: rest =>
    match hasPathE g s n with
    | .error e => .error e
    | .ok false => collect_entry g n rest
    | .ok true =>
      match all_simple_pathsE g s n with
      | .error e => .error e
      | .ok [] => .error .indexError
      | .ok (p :: _) =>
        match path_average_weight g p with
        | .error e => .error e
        | .ok w =>
          match collect_entry g n rest with
          | .error e => .error e
          | .ok (ps, ls, ws) => .ok (p :: ps, p.length :: ls, w :: ws)

/-- The node loop of solve_entry_tips: stop at the first node with more
than one predecessor for which some starting node yields a candidate. -/
def entry_scan (g : Graph) (starts : List Node) : List Node →
    Except Err (Option (List NPath × List Nat × List ℚ))
  | [] => .ok none
  | n :: rest =>
    if 1 < (predecessors g n).length then
      match collect_entry g n starts with
      | .error e => .error e
      | .ok (ps, ls, ws) =>
        if ps.isEmpty then entry_scan g starts rest else .ok (some (ps, ls, ws))
    else entry_scan g starts rest

/-- solve_entry_tips (debruijn.py line 170), fuel-bounded.  On an empty
graph the loop body never runs and the Python read of the local tips
raises NameError; the recursive call keeps the same starting-node list,
exactly as the reference does. -/
def solve_entry_tips (draw : Nat → Nat) : Nat → Graph → List Node → Res
  | 0, g, _ => .err .fuelExhausted g
  | f + 1, g, starts =>
    match g.nodes with
    | [] => .err .nameError g
    | _ :: _ =>
      match entry_scan g starts g.nodes with
      | .error e => .err e g
      | .ok none => .ok g
      | .ok (some (ps, ls, ws)) =>
        match select_best_path draw g ps ls ws true false with
        | .ok g2 => solve_entry_tips draw f g2 starts
        | r => r

/-- The candidate collection of solve_out_tips at a node n, mirror image
of collect_entry. -/
def collect_out (g : Graph) (n : Node) : List Node →
    Except Err (List NPath × List Nat × List ℚ)
  | [] => .ok ([], [], [])
  | s :: rest =>
    match hasPathE g n s with
    | .error e => .error e
    | .ok false => collect_out g n rest
    | .ok true =>
      match all_simple_pathsE g n s with
      | .error e => .error e
      | .ok [] => .error .indexError
      | .ok (p :: _) =>
        match path_average_weight g p with
        | .error e => .error e
        | .ok w =>
          match collect_out g n rest with
          | .error e => .error e
          | .ok (ps, ls, ws) => .ok (p :: ps, p.length :: ls, w :: ws)

/-- The node loop of solve_out_tips: stop at the first node with more
than one successor from which some ending node is reachable. -/
def out_scan (g : Graph) (ends : List Node) : List Node →
    Except Err (Option (List NPath × List Nat × List ℚ))
  | [] => .ok none
  | n :: rest =>
    if 1 < (successors g n).length then
      match collect_out g n ends with
      | .error e => .error e
      | .ok (ps, ls, ws) =>
        if ps.isEmpty then out_scan g ends rest else .ok (some (ps, ls, ws))
    else out_scan g ends rest

/-- solve_out_tips (debruijn.py line 193), fuel-bounded, mirror of
solve_entry_tips with delete_sink_node set. -/
def solve_out_tips (draw : Nat → Nat) : Nat → Graph → List Node → Res
  | 0, g, _ => .err .fuelExhausted g
  | f + 1, g, ends =>
    match g.nodes with
    | [] => .err .nameError g
    | _ :: _ =>
      match out_scan g ends g.nodes with
      | .error e => .err e g
      | .ok none => .ok g
      | .ok (some (ps, ls, ws)) =>
        match select_best_path draw g ps ls ws false true with
        | .ok g2 => solve_out_tips draw f g2 ends
        | r => r

/-- get_starting_nodes (debruijn.py line 216). -/
def get_starting_nodes (g : Graph) : List Node :=
  g.nodes.filter (fun n => decide ((predecessors g n).length = 0))

/-- get_sink_nodes (debruijn.py line 223). -/
def get_sink_nodes (g : Graph) : List Node :=
  g.nodes.filter (fun n => decide ((successors g n).length = 0))

/-- The contig text contributed by one path: path[0] followed by the last
character of every later node; IndexError on an empty list or node, as in
Python. -/
def build_seq : NPath → Except Err (List Char)
  | [] => .error .indexError
  | h :: t =>
    match t.mapM (fun node =>
      match node.getLast? with
      | some c => Except.ok c
      | none => Except.error Err.indexError) with
    | .error e => .error e
    | .ok cs => .ok (h ++ cs)

/-- The path loop of get_contigs for one (source, sink) pair.  The seq
accumulator is threaded across iterations because the reference
initialises seq before the path loop, not inside it, so each emitted
sequence carries the previous ones as a prefix. -/
def pair_contigs_go : List NPath → List Char → Except Err (List (List Char × Nat))
  | [], _ => .ok []
  | p :: rest, seq =>
    match build_seq p with
    | .error e => .error e
    | .ok r =>
      match pair_contigs_go rest (seq ++ r) with
      | .error e => .error e
      | .ok out => .ok ((seq ++ r, (seq ++ r).length) :: out)

/-- The sink loop of get_contigs for a fixed source node. -/
def contigs_inner (g : Graph) (s : Node) : List Node →
    Except Err (List (List Char × Nat))
  | [] => .ok []
  | e :: rest =>
    match hasPathE g s e with
    | .error er => .error er
    | .ok false => contigs_inner g s rest
    | .ok true =>
      match pair_contigs_go (all_simple_paths g s e) [] with
      | .error er => .error er
      | .ok cs =>
        match contigs_inner g s rest with
        | .error er => .error er
        | .ok out => .ok (cs ++ out)

def get_contigs_go (g : Graph) (ends : List Node) : List Node →
    Except Err (List (List Char × Nat))
  | [] => .ok []
  | s :: rest =>
    match contigs_inner g s ends with
    | .error er => .error er
    | .ok cs =>
      match get_contigs_go g ends rest with
      | .error er => .error er
      | .ok out => .ok (cs ++ out)

/-- get_contigs (debruijn.py line 231). -/
def get_contigs (g : Graph) (starting_nodes ending_nodes : List Node) :
    Except Err (List (List Char × Nat)) :=
  get_contigs_go g ending_nodes starting_nodes

/-- networkx implicit node insertion of add_edge: append if absent. -/
def addNode (g : Graph) (n : Node) : Graph :=
  if n ∈ g.nodes then g else ⟨g.nodes ++ [n], g.edges⟩

/-- networkx add_edge(u, v, weight=w): insert missing endpoints in order,
then add the edge, overwriting the stored weight when the ordered pair is
already present. -/
def addEdge (g : Graph) (u v : Node) (w : Nat) : Graph :=
  let g1 := addNode (addNode g u) v
  if g1.edges.any (fun e => decide (e.1 = u) && decide (e.2.1 = v)) then
    ⟨g1.nodes, g1.edges.map (fun e =>
      if e.1 = u ∧ e.2.1 = v then (u, v, w) else e)⟩
  else ⟨g1.nodes, g1.edges ++ [(u, v, w)]⟩

/-- build_graph (debruijn.py line 98): one add_edge per dictionary k-mer,
from the k-mer minus its last character to the k-mer minus its first
character, weighted by the count.  The dictionary is modelled as an
association list in insertion order. -/
def build_graph (kmer_dict : List (List Char × Nat)) : Graph :=
  kmer_dict.foldl (fun g kc => addEdge g kc.1.dropLast (kc.1.drop 1) kc.2) ⟨[], []⟩

theorem addNode_edges (g : Graph) (n : Node) : (addNode g n).edges = g.edges := by
  unfold addNode
  split <;> rfl

theorem addEdge_edges_fresh {g : Graph} {u v : Node} {w : Nat}
    (h : ∀ e ∈ g.edges, ¬ (e.1 = u ∧ e.2.1 = v)) :
    (addEdge g u v w).edges = g.edges ++ [(u, v, w)] := by
  unfold addEdge
  have he : (addNode (addNode g u) v).edges = g.edges := by
    rw [addNode_edges, addNode_edges]
  have hany : ((addNode (addNode g u) v).edges.any
      (fun e => decide (e.1 = u) && decide (e.2.1 = v))) = false := by
    rw [he]
    apply List.any_eq_false.mpr
    intro e hee
    have := h e hee
    by_cases h1 : e.1 = u
    · by_cases h2 : e.2.1 = v
      · exact absurd ⟨h1, h2⟩ this
      · simp [h1, h2]
    · simp [h1]
  dsimp only
  rw [hany]
  simp only [Bool.false_eq_true, if_false]
  rw [he]

/-- Two k-mers of length at least two with the same prefix (all but the
last character) and the same suffix (all but the first character) are
equal. -/
theorem kmer_proj_inj {k1 k2 : List Char} (h1 : 2 ≤ k1.length) (h2 : 2 ≤ k2.length)
    (hpre : k1.dropLast = k2.dropLast) (hsuf : k1.drop 1 = k2.drop 1) : k1 = k2 := by
  match k1, k2, h1, h2 with
  | a1 :: b1 :: t1, a2 :: b2 :: t2, _, _ =>
    have htail : b1 :: t1 = b2 :: t2 := by
      simpa using hsuf
    have hhead : a1 = a2 := by
      have := congrArg List.head? hpre
      simpa using this
    rw [hhead, htail]

theorem build_graph_go :
    ∀ (dict : List (List Char × Nat)) (g : Graph),
      (∀ kc ∈ dict, 2 ≤ kc.1.length) →
      dict.Pairwise (fun a b => a.1 ≠ b.1) →
      (∀ kc ∈ dict, ∀ e ∈ g.edges,
        ¬ (e.1 = kc.1.dropLast ∧ e.2.1 = kc.1.drop 1)) →
      (dict.foldl (fun h kc => addEdge h kc.1.dropLast (kc.1.drop 1) kc.2) g).edges
        = g.edges ++ dict.map (fun kc => (kc.1.dropLast, kc.1.drop 1, kc.2)) := by
  intro dict
  induction dict with
  | nil => intro g _ _ _; simp
  | cons kc rest ih =>
    intro g hlen hpair hfresh
    have hstep : (addEdge g kc.1.dropLast (kc.1.drop 1) kc.2).edges
        = g.edges ++ [(kc.1.dropLast, kc.1.drop 1, kc.2)] :=
      addEdge_edges_fresh (hfresh kc (List.mem_cons_self _ _))
    have hnodes2 : ∀ kc2 ∈ rest, ∀ e ∈ (addEdge g kc.1.dropLast (kc.1.drop 1) kc.2).edges,
        ¬ (e.1 = kc2.1.dropLast ∧ e.2.1 = kc2.1.drop 1) := by
      intro kc2 hkc2 e he hcontra
      rw [hstep] at he
      rcases List.mem_append.mp he with h | h
      · exact hfresh kc2 (List.mem_cons_of_mem _ hkc2) e h hcontra
      · have heq : e = (kc.1.dropLast, kc.1.drop 1, kc.2) := List.mem_singleton.mp h
        subst heq
        simp only at hcontra
        have hkk : kc.1 = kc2.1 :=
          kmer_proj_inj (hlen kc (List.mem_cons_self _ _))
            (hlen kc2 (List.mem_cons_of_mem _ hkc2)) hcontra.1 hcontra.2
        exact (List.pairwise_cons.mp hpair).1 kc2 hkc2 hkk
    have := ih (addEdge g kc.1.dropLast (kc.1.drop 1) kc.2)
      (fun kc2 h2 => hlen kc2 (List.mem_cons_of_mem _ h2))
      (List.pairwise_cons.mp hpair).2 hnodes2
    rw [List.foldl_cons, this, hstep]
    simp

/-- Claim C7 (amended): for every association list of distinct k-mer
strings of length at least two (so in particular for every dictionary of
same-length k-mers with k at least 2), build_graph produces exactly one
edge per distinct k-mer, directed from the k-mer prefix (all but the last
character) to its suffix (all but the first character), carrying that
k-mer count as weight; self-loop edges (prefix equal to suffix) are not
special-cased.  For single-character k-mers the claim fails: all of them
collapse onto the single edge from the empty prefix to the empty suffix,
see the counterexample. -/
theorem build_graph_c7 (kmer_dict : List (List Char × Nat))
    (hlen : ∀ kc ∈ kmer_dict, 2 ≤ kc.1.length)
    (hkeys : kmer_dict.Pairwise (fun a b => a.1 ≠ b.1)) :
    (build_graph kmer_dict).edges
      = kmer_dict.map (fun kc => (kc.1.dropLast, kc.1.drop 1, kc.2)) := by
  have h := build_graph_go kmer_dict ⟨[], []⟩ hlen hkeys
    (by intro kc _ e he; cases he)
  unfold build_graph
  rw [h]
  rfl

theorem build_graph_c7_witness :
    (build_graph [(['A', 'A'], 3), (['A', 'C'], 1)]).edges
      = [(['A'], ['A'], 3), (['A'], ['C'], 1)] := by
  have h := build_graph_c7 [(['A', 'A'], 3), (['A', 'C'], 1)]
    (by decide) (by decide)
  rw [h]
  rfl

/-- Claim C7 counterexample: the mapping of the two distinct 1-mers A
(count 1) and C (count 2) yields a graph with a single edge (from the
empty string to the empty string, with the weight of the last insertion),
not one edge per distinct k-mer as claimed: for k = 1 every k-mer has the
empty prefix and the empty suffix, and add_edge overwrites the stored
weight. -/
theorem build_graph_c7_cex :
    (build_graph [(['A'], 1), (['C'], 2)]).edges = [([], [], 2)]
    ∧ ¬ ((build_graph [(['A'], 1), (['C'], 2)]).edges.length = 2) := by
  decide

theorem pair_contigs_characterization :
    ∀ (ps : List NPath) (rs : List (List Char)) (seq : List Char),
      ps.mapM build_seq = .ok rs →
      pair_contigs_go ps seq
        = .ok ((List.range rs.length).map (fun i =>
            (seq ++ (rs.take (i + 1)).flatten,
             (seq ++ (rs.take (i + 1)).flatten).length))) := by
  intro ps
  induction ps with
  | nil =>
    intro rs seq h
    have hrs : rs = [] := by
      simp only [List.mapM_nil, pure, Except.pure] at h
      cases h
      rfl
    subst hrs
    rfl
  | cons p ps ih =>
    intro rs seq h
    rw [List.mapM_cons] at h
    cases hb : build_seq p with
    | error e => rw [hb] at h; cases h
    | ok r =>
      rw [hb] at h
      cases hm : ps.mapM build_seq with
      | error e =>
        rw [hm] at h
        cases h
      | ok rest =>
        rw [hm] at h
        have hrs : rs = r :: rest := by
          simp only [bind, Except.bind, pure, Except.pure] at h
          cases h
          rfl
        subst hrs
        show pair_contigs_go (p :: ps) seq = _
        unfold pair_contigs_go
        rw [hb]
        dsimp only
        rw [ih rest (seq ++ r) hm]
        dsimp only
        rw [List.length_cons, List.range_succ_eq_map, List.map_cons, List.map_map]
        congr 1
        congr 1
        · simp
        · apply List.map_congr_left
          intro i _
          simp [List.take_succ_cons, List.append_assoc, Function.comp]

/-- Claim C2 (amended): within one (source, sink) pair the reference
emits one contig per enumerated simple path, but the sequence variable is
initialised before the path loop, so the i-th emitted contig is the
concatenation of the reconstructions (first node string followed by the
last character of every later node) of the first i+1 enumerated paths,
paired with the length of that accumulated sequence.  The contig of the
i-th path equals its own reconstruction only for i = 0; in particular it
does when the pair has exactly one simple path, and the originally
claimed per-path behaviour fails as soon as a pair has two or more simple
paths, see the counterexample. -/
theorem get_contigs_c2 (ps : List NPath) (rs : List (List Char))
    (h : ps.mapM build_seq = .ok rs) :
    pair_contigs_go ps []
      = .ok ((List.range rs.length).map (fun i =>
          ((rs.take (i + 1)).flatten, (rs.take (i + 1)).flatten.length)))
    ∧ (∀ r, rs = [r] → pair_contigs_go ps [] = .ok [(r, r.length)]) := by
  have h1 := pair_contigs_characterization ps rs [] h
  simp only [List.nil_append] at h1
  refine ⟨h1, ?_⟩
  intro r hr
  subst hr
  rw [h1]
  simp

theorem get_contigs_c2_witness :
    (pair_contigs_go [[['a'], ['b'], ['d']], [['a'], ['c'], ['d']]] []
      = .ok ((List.range ([['a', 'b', 'd'], ['a', 'c', 'd']] :
            List (List Char)).length).map (fun i =>
          ((([['a', 'b', 'd'], ['a', 'c', 'd']] :
            List (List Char)).take (i + 1)).flatten,
           ((([['a', 'b', 'd'], ['a', 'c', 'd']] :
            List (List Char)).take (i + 1)).flatten).length))))
    ∧ (∀ r, ([['a', 'b', 'd'], ['a', 'c', 'd']] : List (List Char)) = [r] →
        pair_contigs_go [[['a'], ['b'], ['d']], [['a'], ['c'], ['d']]] []
          = .ok [(r, r.length)]) :=
  get_contigs_c2 [[['a'], ['b'], ['d']], [['a'], ['c'], ['d']]]
    [['a', 'b', 'd'], ['a', 'c', 'd']] (by decide)

/-- Claim C2 counterexample: in the diamond graph a -> b -> d, a -> c -> d
the pair (a, d) has the two simple paths [a, b, d] and [a, c, d] in
enumeration order.  The claim predicts the contigs abd (length 3) and acd
(length 3), the reconstruction of the second path being acd as build_seq
confirms; the reference instead emits abd and then abdacd (length 6),
because seq is not reset between paths. -/
theorem get_contigs_c2_cex :
    get_contigs ⟨[['a'], ['b'], ['c'], ['d']],
        [(['a'], ['b'], 1), (['a'], ['c'], 1), (['b'], ['d'], 1), (['c'], ['d'], 1)]⟩
      [['a']] [['d']]
      = .ok [(['a', 'b', 'd'], 3), (['a', 'b', 'd', 'a', 'c', 'd'], 6)]
    ∧ all_simple_paths ⟨[['a'], ['b'], ['c'], ['d']],
        [(['a'], ['b'], 1), (['a'], ['c'], 1), (['b'], ['d'], 1), (['c'], ['d'], 1)]⟩
        ['a'] ['d'] = [[['a'], ['b'], ['d']], [['a'], ['c'], ['d']]]
    ∧ build_seq [['a'], ['c'], ['d']] = .ok ['a', 'c', 'd']
    ∧ (['a', 'b', 'd', 'a', 'c', 'd'] : List Char) ≠ ['a', 'c', 'd'] := by
  decide

/-- The candidate annotations built by the entry-tip resolver pair each
recorded path with its node count and its path_average_weight. -/
theorem collect_entry_annotations {g : Graph} {n : Node} :
    ∀ (starts : List Node) (ps : List NPath) (ls : List Nat) (ws : List ℚ),
      collect_entry g n starts = .ok (ps, ls, ws) →
      ls = ps.map List.length ∧ ps.mapM (path_average_weight g) = .ok ws := by
  intro starts
  induction starts with
  | nil =>
    intro ps ls ws h
    have h0 : collect_entry g n ([] : List Node) = .ok ([], [], []) := rfl
    rw [h0] at h
    injection h with h1
    rw [Prod.mk.injEq, Prod.mk.injEq] at h1
    rcases h1 with ⟨hp, hl, hw⟩
    subst hp
    subst hl
    subst hw
    exact ⟨rfl, rfl⟩
  | cons s rest ih =>
    intro ps ls ws h
    unfold collect_entry at h
    cases h1 : hasPathE g s n with
    | error e => rw [h1] at h; cases h
    | ok b =>
      rw [h1] at h
      cases b with
      | false =>
        dsimp only at h
        exact ih ps ls ws h
      | true =>
        dsimp only at h
        cases h2 : all_simple_pathsE g s n with
        | error e => rw [h2] at h; cases h
        | ok l =>
          rw [h2] at h
          cases l with
          | nil => dsimp only at h; cases h
          | cons p rest2 =>
            dsimp only at h
            cases h3 : path_average_weight g p with
            | error e => rw [h3] at h; cases h
            | ok w =>
              rw [h3] at h
              dsimp only at h
              cases h4 : collect_entry g n rest with
              | error e => rw [h4] at h; cases h
              | ok t =>
                rw [h4] at h
                rcases t with ⟨ps0, ls0, ws0⟩
                dsimp only at h
                injection h with h5
                rw [Prod.mk.injEq, Prod.mk.injEq] at h5
                rcases h5 with ⟨hp, hl, hw⟩
                subst hp
                subst hl
                subst hw
                rcases ih ps0 ls0 ws0 h4 with ⟨hL, hW⟩
                refine ⟨?_, ?_⟩
                · rw [List.map_cons, ← hL]
                · rw [List.mapM_cons, h3, hW]
                  rfl

/-- Mirror of collect_entry_annotations for the exit-tip resolver. -/
theorem collect_out_annotations {g : Graph} {n : Node} :
    ∀ (ends : List Node) (ps : List NPath) (ls : List Nat) (ws : List ℚ),
      collect_out g n ends = .ok (ps, ls, ws) →
      ls = ps.map List.length ∧ ps.mapM (path_average_weight g) = .ok ws := by
  intro ends
  induction ends with
  | nil =>
    intro ps ls ws h
    have h0 : collect_out g n ([] : List Node) = .ok ([], [], []) := rfl
    rw [h0] at h
    injection h with h1
    rw [Prod.mk.injEq, Prod.mk.injEq] at h1
    rcases h1 with ⟨hp, hl, hw⟩
    subst hp
    subst hl
    subst hw
    exact ⟨rfl, rfl⟩
  | cons s rest ih =>
    intro ps ls ws h
    unfold collect_out at h
    cases h1 : hasPathE g n s with
    | error e => rw [h1] at h; cases h
    | ok b =>
      rw [h1] at h
      cases b with
      | false =>
        dsimp only at h
        exact ih ps ls ws h
      | true =>
        dsimp only at h
        cases h2 : all_simple_pathsE g n s with
        | error e => rw [h2] at h; cases h
        | ok l =>
          rw [h2] at h
          cases l with
          | nil => dsimp only at h; cases h
          | cons p rest2 =>
            dsimp only at h
            cases h3 : path_average_weight g p with
            | error e => rw [h3] at h; cases h
            | ok w =>
              rw [h3] at h
              dsimp only at h
              cases h4 : collect_out g n rest with
              | error e => rw [h4] at h; cases h
              | ok t =>
                rw [h4] at h
                rcases t with ⟨ps0, ls0, ws0⟩
                dsimp only at h
                injection h with h5
                rw [Prod.mk.injEq, Prod.mk.injEq] at h5
                rcases h5 with ⟨hp, hl, hw⟩
                subst hp
                subst hl
                subst hw
                rcases ih ps0 ls0 ws0 h4 with ⟨hL, hW⟩
                refine ⟨?_, ?_⟩
                · rw [List.map_cons, ← hL]
                · rw [List.mapM_cons, h3, hW]
                  rfl

/-- Claim C6 (amended): the candidate annotations built by solve_bubble
and by both tip resolvers (collect_entry and collect_out feed the
candidates of solve_entry_tips and solve_out_tips) pair each recorded
path with its node count and with path_average_weight, which is the mean
weight of ALL edges of the induced subgraph on the path nodes — chords
included — not only of the edges joining consecutive node pairs; the
induced mean equals the mean over exactly the consecutive-pair edges
whenever every induced edge joins a consecutive pair (no chord), the last
conjunct.  The original claim that edges of the graph not on the path
never contribute fails on paths with a chord, see the counterexample. -/
theorem path_weight_c6 :
    (∀ (g : Graph) (a d : Node) (ps : List NPath) (ls : List Nat) (ws : List ℚ),
        bubble_candidates g a d = .ok (ps, ls, ws) →
        ls = ps.map List.length ∧ ps.mapM (path_average_weight g) = .ok ws)
    ∧ (∀ (g : Graph) (n : Node) (starts : List Node) (ps : List NPath)
        (ls : List Nat) (ws : List ℚ),
        collect_entry g n starts = .ok (ps, ls, ws) →
        ls = ps.map List.length ∧ ps.mapM (path_average_weight g) = .ok ws)
    ∧ (∀ (g : Graph) (n : Node) (ends : List Node) (ps : List NPath)
        (ls : List Nat) (ws : List ℚ),
        collect_out g n ends = .ok (ps, ls, ws) →
        ls = ps.map List.length ∧ ps.mapM (path_average_weight g) = .ok ws)
    ∧ (∀ (g : Graph) (p : NPath),
        (∀ e ∈ g.edges, e.1 ∈ p → e.2.1 ∈ p → (e.1, e.2.1) ∈ p.zip (p.drop 1)) →
        path_average_weight g p = claim_path_weight g p) := by
  refine ⟨?_,
    fun g n starts ps ls ws h => collect_entry_annotations starts ps ls ws h,
    fun g n ends ps ls ws h => collect_out_annotations ends ps ls ws h, ?_⟩
  · intro g a d ps ls ws h
    unfold bubble_candidates at h
    cases h1 : all_simple_pathsE g a d with
    | error e => rw [h1] at h; cases h
    | ok ps0 =>
      rw [h1] at h
      dsimp only at h
      cases h2 : ps0.mapM (path_average_weight g) with
      | error e => rw [h2] at h; cases h
      | ok ws0 =>
        rw [h2] at h
        dsimp only at h
        injection h with h3
        rw [Prod.mk.injEq, Prod.mk.injEq] at h3
        rcases h3 with ⟨hp, hl, hw⟩
        subst hp
        subst hl
        subst hw
        exact ⟨rfl, h2⟩
  · intro g p hchord
    have hfe : inducedEdges g p = consecEdges g p := by
      unfold inducedEdges consecEdges
      apply List.filter_congr
      intro e he
      by_cases h1 : e.1 ∈ p
      · by_cases h2 : e.2.1 ∈ p
        · rw [decide_eq_true h1, decide_eq_true h2,
            decide_eq_true (hchord e he h1 h2)]
          rfl
        · have hz : (e.1, e.2.1) ∉ p.zip (p.drop 1) := by
            intro hm
            exact h2 (List.mem_of_mem_drop (List.of_mem_zip hm).2)
          simp only [List.drop_one] at hz
          simp [h1, h2, hz]
      · have hz : (e.1, e.2.1) ∉ p.zip (p.drop 1) := by
          intro hm
          exact h1 (List.of_mem_zip hm).1
        simp only [List.drop_one] at hz
        simp [h1, hz]
    unfold path_average_weight claim_path_weight
    rw [hfe]

theorem path_weight_c6_witness :
    (([2] : List Nat) = [[['a'], ['c']]].map List.length
      ∧ [[['a'], ['c']]].mapM
          (path_average_weight ⟨[['a'], ['c']], [(['a'], ['c'], 2)]⟩)
        = .ok [(((2 : Nat) : ℚ) + 0) / ((1 : Nat) : ℚ)])
    ∧ (([2] : List Nat) = [[['a'], ['c']]].map List.length
      ∧ [[['a'], ['c']]].mapM
          (path_average_weight ⟨[['a'], ['c']], [(['a'], ['c'], 3)]⟩)
        = .ok [(((3 : Nat) : ℚ) + 0) / ((1 : Nat) : ℚ)])
    ∧ (([2] : List Nat) = [[['a'], ['c']]].map List.length
      ∧ [[['a'], ['c']]].mapM
          (path_average_weight ⟨[['a'], ['c']], [(['a'], ['c'], 5)]⟩)
        = .ok [(((5 : Nat) : ℚ) + 0) / ((1 : Nat) : ℚ)])
    ∧ path_average_weight ⟨[['a'], ['c']], [(['a'], ['c'], 2)]⟩ [['a'], ['c']]
      = claim_path_weight ⟨[['a'], ['c']], [(['a'], ['c'], 2)]⟩ [['a'], ['c']] :=
  ⟨path_weight_c6.1 ⟨[['a'], ['c']], [(['a'], ['c'], 2)]⟩ ['a'] ['c']
      [[['a'], ['c']]] [2] [(((2 : Nat) : ℚ) + 0) / ((1 : Nat) : ℚ)] rfl,
   path_weight_c6.2.1 ⟨[['a'], ['c']], [(['a'], ['c'], 3)]⟩ ['c'] [['a']]
      [[['a'], ['c']]] [2] [(((3 : Nat) : ℚ) + 0) / ((1 : Nat) : ℚ)] rfl,
   path_weight_c6.2.2.1 ⟨[['a'], ['c']], [(['a'], ['c'], 5)]⟩ ['a'] [['c']]
      [[['a'], ['c']]] [2] [(((5 : Nat) : ℚ) + 0) / ((1 : Nat) : ℚ)] rfl,
   path_weight_c6.2.2.2 ⟨[['a'], ['c']], [(['a'], ['c'], 2)]⟩ [['a'], ['c']]
      (by decide)⟩

/-- Claim C6 counterexample: in the graph with edges a -> b (weight 1),
b -> c (weight 1) and the chord a -> c (weight 10), solve_bubble between
a and c annotates the candidate path [a, b, c] with mean weight
(1 + 1 + 10) / 3 = 4, because the induced subgraph on its nodes also
contains the chord a -> c; the mean over exactly the consecutive-pair
edges is (1 + 1) / 2 = 1. -/
theorem path_weight_c6_cex :
    bubble_candidates
        ⟨[['a'], ['b'], ['c']],
         [(['a'], ['b'], 1), (['b'], ['c'], 1), (['a'], ['c'], 10)]⟩
        ['a'] ['c']
      = .ok ([[['a'], ['b'], ['c']], [['a'], ['c']]], [3, 2], [4, 10])
    ∧ claim_path_weight
        ⟨[['a'], ['b'], ['c']],
         [(['a'], ['b'], 1), (['b'], ['c'], 1), (['a'], ['c'], 10)]⟩
        [['a'], ['b'], ['c']] = .ok 1
    ∧ ((4 : ℚ) ≠ 1) := by
  refine ⟨?_, ?_, by norm_num⟩
  · have hasp : all_simple_pathsE
        ⟨[['a'], ['b'], ['c']],
         [(['a'], ['b'], 1), (['b'], ['c'], 1), (['a'], ['c'], 10)]⟩
        ['a'] ['c'] = .ok [[['a'], ['b'], ['c']], [['a'], ['c']]] := by decide
    have h1 : inducedEdges
        ⟨[['a'], ['b'], ['c']],
         [(['a'], ['b'], 1), (['b'], ['c'], 1), (['a'], ['c'], 10)]⟩
        [['a'], ['b'], ['c']]
        = [(['a'], ['b'], 1), (['b'], ['c'], 1), (['a'], ['c'], 10)] := by decide
    have h2 : inducedEdges
        ⟨[['a'], ['b'], ['c']],
         [(['a'], ['b'], 1), (['b'], ['c'], 1), (['a'], ['c'], 10)]⟩
        [['a'], ['c']] = [(['a'], ['c'], 10)] := by decide
    have hw1 : path_average_weight
        ⟨[['a'], ['b'], ['c']],
         [(['a'], ['b'], 1), (['b'], ['c'], 1), (['a'], ['c'], 10)]⟩
        [['a'], ['b'], ['c']] = .ok 4 := by
      unfold path_average_weight
      rw [h1]
      simp only [List.isEmpty_cons, Bool.false_eq_true, if_false]
      congr 1
      norm_num
    have hw2 : path_average_weight
        ⟨[['a'], ['b'], ['c']],
         [(['a'], ['b'], 1), (['b'], ['c'], 1), (['a'], ['c'], 10)]⟩
        [['a'], ['c']] = .ok 10 := by
      unfold path_average_weight
      rw [h2]
      simp only [List.isEmpty_cons, Bool.false_eq_true, if_false]
      congr 1
      norm_num
    have hm : [[['a'], ['b'], ['c']], [['a'], ['c']]].mapM
        (path_average_weight
          ⟨[['a'], ['b'], ['c']],
           [(['a'], ['b'], 1), (['b'], ['c'], 1), (['a'], ['c'], 10)]⟩)
        = .ok [4, 10] := by
      rw [List.mapM_cons, List.mapM_cons, List.mapM_nil, hw1, hw2]
      rfl
    unfold bubble_candidates
    rw [hasp]
    dsimp only
    rw [hm]
    rfl
  · have h3 : consecEdges
        ⟨[['a'], ['b'], ['c']],
         [(['a'], ['b'], 1), (['b'], ['c'], 1), (['a'], ['c'], 10)]⟩
        [['a'], ['b'], ['c']] = [(['a'], ['b'], 1), (['b'], ['c'], 1)] := by decide
    unfold claim_path_weight
    rw [h3]
    simp only [List.isEmpty_cons, Bool.false_eq_true, if_false]
    congr 1
    norm_num

/-- Subgraph relation: the node set and the edge set (edges carry their
weight, so a surviving edge keeps its weight) are subsets of those of the
larger graph. -/
def Subg (h g : Graph) : Prop :=
  (∀ x ∈ h.nodes, x ∈ g.nodes) ∧ (∀ e ∈ h.edges, e ∈ g.edges)

theorem Subg_refl (g : Graph) : Subg g g :=
  ⟨fun _ hx => hx, fun _ he => he⟩

theorem Subg_trans {g1 g2 g3 : Graph} (h12 : Subg g1 g2) (h23 : Subg g2 g3) :
    Subg g1 g3 :=
  ⟨fun x hx => h23.1 x (h12.1 x hx), fun e he => h23.2 e (h12.2 e he)⟩

theorem remove_nodes_from_subg (g : Graph) (l : List Node) :
    Subg (remove_nodes_from g l) g := by
  constructor
  · intro x hx
    exact (List.mem_filter.mp hx).1
  · intro e he
    exact (List.mem_filter.mp he).1

theorem remove_paths_subg :
    ∀ (ps : List NPath) (g : Graph) (dE dS : Bool),
      Subg (remove_paths g ps dE dS) g := by
  intro ps
  induction ps with
  | nil => intro g dE dS; exact Subg_refl g
  | cons p ps ih =>
    intro g dE dS
    have h1 : remove_paths g (p :: ps) dE dS
        = remove_paths (remove_nodes_from g (pathSlice p dE dS)) ps dE dS := rfl
    rw [h1]
    exact Subg_trans (ih _ dE dS) (remove_nodes_from_subg g _)

theorem select_best_path_subg (draw : Nat → Nat) (g : Graph) (ps : List NPath)
    (ls : List Nat) (ws : List ℚ) (dE dS : Bool) :
    Subg (select_best_path draw g ps ls ws dE dS).graph g := by
  unfold select_best_path
  repeat' split
  all_goals simp only [Res.graph]
  all_goals first
    | exact Subg_refl _
    | apply remove_paths_subg

theorem solve_bubble_subg (draw : Nat → Nat) (g : Graph) (anc : Option Node)
    (d : Node) : Subg (solve_bubble draw g anc d).graph g := by
  unfold solve_bubble
  cases anc with
  | none => exact Subg_refl g
  | some a =>
    dsimp only
    cases bubble_candidates g a d with
    | error e => exact Subg_refl g
    | ok c =>
      rcases c with ⟨ps, ls, ws⟩
      exact select_best_path_subg draw g ps ls ws false false

theorem simplify_bubbles_subg (draw : Nat → Nat) :
    ∀ (f : Nat) (g : Graph), Subg (simplify_bubbles draw f g).graph g := by
  intro f
  induction f with
  | zero => intro g; exact Subg_refl g
  | succ f ih =>
    intro g
    show Subg (simplify_bubbles draw (f + 1) g).graph g
    unfold simplify_bubbles
    cases scan_bubbles g with
    | error e => exact Subg_refl g
    | ok o =>
      cases o with
      | none => exact Subg_refl g
      | some an =>
        rcases an with ⟨anc, n⟩
        dsimp only
        have hsb := solve_bubble_subg draw g anc n
        cases hs : solve_bubble draw g anc n with
        | ok g2 =>
          rw [hs] at hsb
          exact Subg_trans (ih g2) hsb
        | err e g3 =>
          rw [hs] at hsb
          exact hsb

theorem solve_entry_tips_subg (draw : Nat → Nat) :
    ∀ (f : Nat) (g : Graph) (starts : List Node),
      Subg (solve_entry_tips draw f g starts).graph g := by
  intro f
  induction f with
  | zero => intro g starts; exact Subg_refl g
  | succ f ih =>
    intro g starts
    show Subg (solve_entry_tips draw (f + 1) g starts).graph g
    unfold solve_entry_tips
    cases g.nodes with
    | nil => exact Subg_refl g
    | cons n0 rest0 =>
      dsimp only
      cases entry_scan g starts (n0 :: rest0) with
      | error e => exact Subg_refl g
      | ok o =>
        cases o with
        | none => exact Subg_refl g
        | some c =>
          rcases c with ⟨ps, ls, ws⟩
          dsimp only
          have hsel := select_best_path_subg draw g ps ls ws true false
          cases hs : select_best_path draw g ps ls ws true false with
          | ok g2 =>
            rw [hs] at hsel
            exact Subg_trans (ih g2 starts) hsel
          | err e g3 =>
            rw [hs] at hsel
            exact hsel

theorem solve_out_tips_subg (draw : Nat → Nat) :
    ∀ (f : Nat) (g : Graph) (ends : List Node),
      Subg (solve_out_tips draw f g ends).graph g := by
  intro f
  induction f with
  | zero => intro g ends; exact Subg_refl g
  | succ f ih =>
    intro g ends
    show Subg (solve_out_tips draw (f + 1) g ends).graph g
    unfold solve_out_tips
    cases g.nodes with
    | nil => exact Subg_refl g
    | cons n0 rest0 =>
      dsimp only
      cases out_scan g ends (n0 :: rest0) with
      | error e => exact Subg_refl g
      | ok o =>
        cases o with
        | none => exact Subg_refl g
        | some c =>
          rcases c with ⟨ps, ls, ws⟩
          dsimp only
          have hsel := select_best_path_subg draw g ps ls ws false true
          cases hs : select_best_path draw g ps ls ws false true with
          | ok g2 =>
            rw [hs] at hsel
            exact Subg_trans (ih g2 ends) hsel
          | err e g3 =>
            rw [hs] at hsel
            exact hsel

/-- Claim C8: every simplification operation only removes nodes and
edges, never adds any: whatever graph state each of remove_paths,
select_best_path, simplify_bubbles, solve_entry_tips and solve_out_tips
leaves behind (also on the error paths, where Res carries the graph state
at the raise point) has node and edge sets included in those of the input
graph, and a surviving edge keeps its weight because edges are
(source, target, weight) triples. -/
theorem simplification_removal_c8 (draw : Nat → Nat) :
    (∀ (g : Graph) (ps : List NPath) (dE dS : Bool),
        Subg (remove_paths g ps dE dS) g)
    ∧ (∀ (g : Graph) (ps : List NPath) (ls : List Nat) (ws : List ℚ) (dE dS : Bool),
        Subg (select_best_path draw g ps ls ws dE dS).graph g)
    ∧ (∀ (f : Nat) (g : Graph), Subg (simplify_bubbles draw f g).graph g)
    ∧ (∀ (f : Nat) (g : Graph) (starts : List Node),
        Subg (solve_entry_tips draw f g starts).graph g)
    ∧ (∀ (f : Nat) (g : Graph) (ends : List Node),
        Subg (solve_out_tips draw f g ends).graph g) :=
  ⟨fun g ps dE dS => remove_paths_subg ps g dE dS,
   fun g ps ls ws dE dS => select_best_path_subg draw g ps ls ws dE dS,
   simplify_bubbles_subg draw,
   solve_entry_tips_subg draw,
   solve_out_tips_subg draw⟩

theorem hasCycleB_eq_false {g : Graph}
    (hacyc : ∀ n ∈ g.nodes, ∀ v, edgeRel g n v → ¬ Reach g v n) :
    hasCycleB g = false := by
  unfold hasCycleB
  rw [List.any_eq_false]
  intro n hn
  rw [Bool.not_eq_true, List.any_eq_false]
  intro v hv htrue
  exact hacyc n hn v (mem_successors.mp hv) (reachN_sound htrue)

theorem lca_none_of_no_common {g : Graph} {i j : Node}
    (hi : i ∈ g.nodes) (hj : j ∈ g.nodes)
    (hcyc : hasCycleB g = false)
    (hno : ¬ ∃ a ∈ g.nodes, Reach g a i ∧ Reach g a j) :
    lcaE g i j = .ok none := by
  unfold lcaE
  rw [hcyc]
  simp only [Bool.false_eq_true, if_false]
  rw [if_pos (by simp [hi, hj])]
  have hca : commonAncestors g i j = [] := by
    unfold commonAncestors
    apply List.filter_eq_nil_iff.mpr
    intro a ha
    cases h1 : reachB g a i with
    | false => simp
    | true =>
      cases h2 : reachB g a j with
      | false => simp
      | true =>
        exact absurd ⟨a, ha, reachN_sound h1, reachN_sound h2⟩ hno
  rw [hca]
  rfl

theorem scan_inner_no_lca {g : Graph} {i : Node} :
    ∀ (js : List Node) (anc : Option Node) (b : Bool),
      (∀ j ∈ js, lcaE g i j = .ok none) →
      ∃ anc2, scan_inner g i js anc b = .ok (anc2, b) := by
  intro js
  induction js with
  | nil => intro anc b _; exact ⟨anc, rfl⟩
  | cons j js ih =>
    intro anc b hno
    have h1 : lcaE g i j = .ok none := hno j (List.mem_cons_self _ _)
    unfold scan_inner
    rw [h1]
    exact ih none b (fun j2 h2 => hno j2 (List.mem_cons_of_mem _ h2))

theorem scan_pairs_no_lca {g : Graph} :
    ∀ (l : List Node) (anc : Option Node) (b : Bool),
      l.Pairwise (fun i j => lcaE g i j = .ok none) →
      ∃ anc2, scan_pairs g l anc b = .ok (anc2, b) := by
  intro l
  induction l with
  | nil => intro anc b _; exact ⟨anc, rfl⟩
  | cons i rest ih =>
    intro anc b hno
    rcases List.pairwise_cons.mp hno with ⟨hhead, htail⟩
    rcases scan_inner_no_lca rest anc b hhead with ⟨anc1, h1⟩
    unfold scan_pairs
    rw [h1]
    exact ih anc1 b htail

theorem scan_nodes_cons_eq (g : Graph) (n : Node) (rest : List Node) (b : Bool)
    (anc noeud : Option Node) :
    scan_nodes g (n :: rest) b anc noeud
      = if 1 < (predecessors g n).length then
          match scan_pairs g (predecessors g n) anc b with
          | .error e => .error e
          | .ok (anc2, b2) => scan_nodes g rest b2 anc2 (some n)
        else if b then
          match noeud with
          | some m => .ok (some (anc, m))
          | none => .error .nameError
        else scan_nodes g rest b anc noeud := rfl

theorem scan_nodes_none {g : Graph} :
    ∀ (l : List Node),
      (∀ n ∈ l, 1 < (predecessors g n).length →
        (predecessors g n).Pairwise (fun i j => lcaE g i j = .ok none)) →
      ∀ (anc noeud : Option Node),
        scan_nodes g l false anc noeud = .ok none := by
  intro l
  induction l with
  | nil => intro _ anc noeud; rfl
  | cons n rest ih =>
    intro hq anc noeud
    rw [scan_nodes_cons_eq]
    by_cases hp : 1 < (predecessors g n).length
    · rw [if_pos hp]
      rcases scan_pairs_no_lca (predecessors g n) anc false
        (hq n (List.mem_cons_self _ _) hp) with ⟨anc2, h2⟩
      rw [h2]
      exact ih (fun m hm => hq m (List.mem_cons_of_mem _ hm)) anc2 (some n)
    · rw [if_neg hp]
      simp only [Bool.false_eq_true, if_false]
      exact ih (fun m hm => hq m (List.mem_cons_of_mem _ hm)) anc noeud

theorem hasPathE_false {g : Graph} {s n : Node} (hs : s ∈ g.nodes)
    (hn : n ∈ g.nodes) (hno : ¬ Reach g s n) : hasPathE g s n = .ok false := by
  unfold hasPathE
  rw [if_pos (by simp [hs, hn])]
  cases hr : reachN g g.nodes.length s n with
  | false => rfl
  | true => exact absurd (reachN_sound hr) hno

theorem collect_entry_empty {g : Graph} {n : Node} (hn : n ∈ g.nodes) :
    ∀ (starts : List Node),
      (∀ s ∈ starts, s ∈ g.nodes ∧ ¬ Reach g s n) →
      collect_entry g n starts = .ok ([], [], []) := by
  intro starts
  induction starts with
  | nil => intro _; rfl
  | cons s rest ih =>
    intro h
    have h1 := hasPathE_false (h s (List.mem_cons_self _ _)).1 hn
      (h s (List.mem_cons_self _ _)).2
    unfold collect_entry
    rw [h1]
    exact ih (fun s2 h2 => h s2 (List.mem_cons_of_mem _ h2))

theorem entry_scan_none {g : Graph} {starts : List Node}
    (hstarts : ∀ s ∈ starts, s ∈ g.nodes) :
    ∀ (l : List Node), (∀ n ∈ l, n ∈ g.nodes) →
      (∀ n ∈ l, 1 < (predecessors g n).length → ∀ s ∈ starts, ¬ Reach g s n) →
      entry_scan g starts l = .ok none := by
  intro l
  induction l with
  | nil => intro _ _; rfl
  | cons n rest ih =>
    intro hmem hq
    unfold entry_scan
    by_cases hp : 1 < (predecessors g n).length
    · rw [if_pos hp]
      have hc := collect_entry_empty (hmem n (List.mem_cons_self _ _)) starts
        (fun s hs => ⟨hstarts s hs, hq n (List.mem_cons_self _ _) hp s hs⟩)
      rw [hc]
      exact ih (fun m hm => hmem m (List.mem_cons_of_mem _ hm))
        (fun m hm => hq m (List.mem_cons_of_mem _ hm))
    · rw [if_neg hp]
      exact ih (fun m hm => hmem m (List.mem_cons_of_mem _ hm))
        (fun m hm => hq m (List.mem_cons_of_mem _ hm))

theorem collect_out_empty {g : Graph} {n : Node} (hn : n ∈ g.nodes) :
    ∀ (ends : List Node),
      (∀ s ∈ ends, s ∈ g.nodes ∧ ¬ Reach g n s) →
      collect_out g n ends = .ok ([], [], []) := by
  intro ends
  induction ends with
  | nil => intro _; rfl
  | cons s rest ih =>
    intro h
    have h1 := hasPathE_false hn (h s (List.mem_cons_self _ _)).1
      (h s (List.mem_cons_self _ _)).2
    unfold collect_out
    rw [h1]
    exact ih (fun s2 h2 => h s2 (List.mem_cons_of_mem _ h2))

theorem out_scan_none {g : Graph} {ends : List Node}
    (hends : ∀ s ∈ ends, s ∈ g.nodes) :
    ∀ (l : List Node), (∀ n ∈ l, n ∈ g.nodes) →
      (∀ n ∈ l, 1 < (successors g n).length → ∀ s ∈ ends, ¬ Reach g n s) →
      out_scan g ends l = .ok none := by
  intro l
  induction l with
  | nil => intro _ _; rfl
  | cons n rest ih =>
    intro hmem hq
    unfold out_scan
    by_cases hp : 1 < (successors g n).length
    · rw [if_pos hp]
      have hc := collect_out_empty (hmem n (List.mem_cons_self _ _)) ends
        (fun s hs => ⟨hends s hs, hq n (List.mem_cons_self _ _) hp s hs⟩)
      rw [hc]
      exact ih (fun m hm => hmem m (List.mem_cons_of_mem _ hm))
        (fun m hm => hq m (List.mem_cons_of_mem _ hm))
    · rw [if_neg hp]
      exact ih (fun m hm => hmem m (List.mem_cons_of_mem _ hm))
        (fun m hm => hq m (List.mem_cons_of_mem _ hm))

/-- Under well-formedness the predecessor list of a node has no
duplicates, because the graph stores at most one edge per ordered node
pair. -/
theorem predecessors_nodup {g : Graph} (hWF : g.WF) (n : Node) :
    (predecessors g n).Nodup := by
  have hkeys : ((g.edges.filter (fun e => decide (e.2.1 = n))).map
      (fun e => (e.1, e.2.1))).Nodup := by
    apply List.Nodup.sublist ?_ hWF.2.2
    exact List.Sublist.map _ (List.filter_sublist _)
  unfold predecessors
  have hmapeq : (g.edges.filter (fun e => decide (e.2.1 = n))).map (fun e => e.1)
      = ((g.edges.filter (fun e => decide (e.2.1 = n))).map
          (fun e => (e.1, e.2.1))).map Prod.fst := by
    rw [List.map_map]
    rfl
  rw [hmapeq]
  apply List.Nodup.map_on ?_ hkeys
  intro x hx y hy hxy
  rcases List.mem_map.mp hx with ⟨e1, he1, hx1⟩
  rcases List.mem_map.mp hy with ⟨e2, he2, hy1⟩
  have hxn : x.2 = n := by
    rw [← hx1]
    exact of_decide_eq_true (List.mem_filter.mp he1).2
  have hyn : y.2 = n := by
    rw [← hy1]
    exact of_decide_eq_true (List.mem_filter.mp he2).2
  exact Prod.ext hxy (hxn.trans hyn.symm)

/-- Bridge used by the witness: the fully decidable no-qualifying-node
test implies the semantic no-common-ancestor hypothesis of claim C9. -/
theorem no_qualifying_of_bool {g : Graph}
    (hedges : ∀ e ∈ g.edges, e.1 ∈ g.nodes ∧ e.2.1 ∈ g.nodes)
    (hb : (g.nodes.all (fun n => (!(decide (1 < (predecessors g n).length))) ||
        (predecessors g n).all (fun i => (predecessors g n).all (fun j =>
          decide (i = j) ||
            !(g.nodes.any (fun a => reachB g a i && reachB g a j)))))) = true) :
    ∀ n ∈ g.nodes, 1 < (predecessors g n).length →
      ∀ i ∈ predecessors g n, ∀ j ∈ predecessors g n, i ≠ j →
        ¬ ∃ a ∈ g.nodes, Reach g a i ∧ Reach g a j := by
  intro n hn hp i hi j hj hij hex
  rcases hex with ⟨a, ha, hai, haj⟩
  have h1 := List.all_eq_true.mp hb n hn
  rw [Bool.or_eq_true] at h1
  rcases h1 with h1 | h1
  · rw [Bool.not_eq_eq_eq_not, Bool.not_true, decide_eq_false_iff_not] at h1
    exact h1 hp
  · have h2 := List.all_eq_true.mp (List.all_eq_true.mp h1 i hi) j hj
    rw [Bool.or_eq_true] at h2
    rcases h2 with h2 | h2
    · exact hij (of_decide_eq_true h2)
    · have h4 : g.nodes.any (fun a => reachB g a i && reachB g a j) = true := by
        apply List.any_eq_true.mpr
        refine ⟨a, ha, ?_⟩
        rw [Bool.and_eq_true]
        exact ⟨reach_reachN hedges ha hai, reach_reachN hedges ha haj⟩
      rw [h4] at h2
      cases h2

/-- Claim C9 (amended): on a graph where a full scan finds no qualifying
node, each simplifier returns the graph unchanged.  For simplify_bubbles
no node has a pair of DISTINCT predecessors sharing a common ancestor
(the scan only compares distinct pairs: each inner loop runs over the
strict tail of the predecessor list), and the graph is well formed and
acyclic (the networkx LCA query raises on a graph with a directed
cycle); for the tip resolvers the starting and ending nodes are nodes of
the graph (as source and sink nodes are by definition) and the graph has
at least one node: their tips flag is only assigned inside the node
loop, so on an empty graph the reference raises NameError instead of
returning the graph, see the counterexample. -/
theorem simplifier_idempotent_c9 (draw : Nat → Nat) (f : Nat) (g : Graph)
    (starts ends : List Node) :
    (g.WF →
      (∀ n ∈ g.nodes, ∀ v, edgeRel g n v → ¬ Reach g v n) →
      (∀ n ∈ g.nodes, 1 < (predecessors g n).length →
        ∀ i ∈ predecessors g n, ∀ j ∈ predecessors g n, i ≠ j →
          ¬ ∃ a ∈ g.nodes, Reach g a i ∧ Reach g a j) →
      simplify_bubbles draw (f + 1) g = .ok g)
    ∧ (g.nodes ≠ [] →
      (∀ s ∈ starts, s ∈ g.nodes) →
      (∀ n ∈ g.nodes, 1 < (predecessors g n).length →
        ∀ s ∈ starts, ¬ Reach g s n) →
      solve_entry_tips draw (f + 1) g starts = .ok g)
    ∧ (g.nodes ≠ [] →
      (∀ s ∈ ends, s ∈ g.nodes) →
      (∀ n ∈ g.nodes, 1 < (successors g n).length →
        ∀ s ∈ ends, ¬ Reach g n s) →
      solve_out_tips draw (f + 1) g ends = .ok g) := by
  refine ⟨?_, ?_, ?_⟩
  · intro hWF hacyc hnb
    have hcyc := hasCycleB_eq_false hacyc
    have hscan : scan_bubbles g = .ok none := by
      unfold scan_bubbles
      apply scan_nodes_none
      intro n hn hp
      have hnd : (predecessors g n).Nodup := predecessors_nodup hWF n
      apply List.Pairwise.imp_of_mem ?_ hnd
      intro i j hi hj hij
      have hie : edgeRel g i n := mem_predecessors.mp hi
      have hje : edgeRel g j n := mem_predecessors.mp hj
      rcases hie with ⟨c1, hc1⟩
      rcases hje with ⟨c2, hc2⟩
      exact lca_none_of_no_common (hWF.2.1 _ hc1).1 (hWF.2.1 _ hc2).1 hcyc
        (hnb n hn hp i hi j hj hij)
    show simplify_bubbles draw (f + 1) g = .ok g
    unfold simplify_bubbles
    rw [hscan]
  · intro hne hstarts hnt
    have hscan : entry_scan g starts g.nodes = .ok none :=
      entry_scan_none hstarts g.nodes (fun n hn => hn) hnt
    show solve_entry_tips draw (f + 1) g starts = .ok g
    unfold solve_entry_tips
    cases hgn : g.nodes with
    | nil => exact absurd hgn hne
    | cons n0 r0 =>
      dsimp only
      rw [← hgn, hscan]
  · intro hne hends hnt
    have hscan : out_scan g ends g.nodes = .ok none :=
      out_scan_none hends g.nodes (fun n hn => hn) hnt
    show solve_out_tips draw (f + 1) g ends = .ok g
    unfold solve_out_tips
    cases hgn : g.nodes with
    | nil => exact absurd hgn hne
    | cons n0 r0 =>
      dsimp only
      rw [← hgn, hscan]

theorem simplifier_idempotent_c9_witness :
    simplify_bubbles (fun _ => 0) 1
        ⟨[['u'], ['v'], ['m']], [(['u'], ['m'], 1), (['v'], ['m'], 1)]⟩
      = .ok ⟨[['u'], ['v'], ['m']], [(['u'], ['m'], 1), (['v'], ['m'], 1)]⟩
    ∧ solve_entry_tips (fun _ => 0) 1 ⟨[['a'], ['b']], [(['a'], ['b'], 1)]⟩ [['a']]
      = .ok ⟨[['a'], ['b']], [(['a'], ['b'], 1)]⟩
    ∧ solve_out_tips (fun _ => 0) 1 ⟨[['a'], ['b']], [(['a'], ['b'], 1)]⟩ [['b']]
      = .ok ⟨[['a'], ['b']], [(['a'], ['b'], 1)]⟩ := by
  have hpred : ∀ n ∈ (⟨[['a'], ['b']], [(['a'], ['b'], 1)]⟩ : Graph).nodes,
      ¬ (1 < (predecessors ⟨[['a'], ['b']], [(['a'], ['b'], 1)]⟩ n).length) := by
    decide
  have hsucc : ∀ n ∈ (⟨[['a'], ['b']], [(['a'], ['b'], 1)]⟩ : Graph).nodes,
      ¬ (1 < (successors ⟨[['a'], ['b']], [(['a'], ['b'], 1)]⟩ n).length) := by
    decide
  have hacycJ : ∀ n ∈ (⟨[['u'], ['v'], ['m']],
        [(['u'], ['m'], 1), (['v'], ['m'], 1)]⟩ : Graph).nodes,
      ∀ w, edgeRel ⟨[['u'], ['v'], ['m']], [(['u'], ['m'], 1), (['v'], ['m'], 1)]⟩ n w →
        ¬ Reach ⟨[['u'], ['v'], ['m']], [(['u'], ['m'], 1), (['v'], ['m'], 1)]⟩ w n := by
    intro n hn w hw hr
    rcases hw with ⟨c, hc⟩
    rcases List.mem_cons.mp hc with h | h
    · have hn1 : n = ['u'] := congrArg Prod.fst h
      have hw1 : w = ['m'] := by
        have := congrArg (fun e => e.2.1) h
        simpa using this
      subst hn1
      subst hw1
      have hrb := reach_reachN
        (g := ⟨[['u'], ['v'], ['m']], [(['u'], ['m'], 1), (['v'], ['m'], 1)]⟩)
        (by decide) (by decide) hr
      revert hrb
      decide
    · have h2 := List.mem_singleton.mp h
      have hn1 : n = ['v'] := congrArg Prod.fst h2
      have hw1 : w = ['m'] := by
        have := congrArg (fun e => e.2.1) h2
        simpa using this
      subst hn1
      subst hw1
      have hrb := reach_reachN
        (g := ⟨[['u'], ['v'], ['m']], [(['u'], ['m'], 1), (['v'], ['m'], 1)]⟩)
        (by decide) (by decide) hr
      revert hrb
      decide
  refine ⟨(simplifier_idempotent_c9 (fun _ => 0) 0 _ [] []).1
      (by decide) hacycJ (no_qualifying_of_bool (by decide) (by decide)),
    (simplifier_idempotent_c9 (fun _ => 0) 0 _ [['a']] [['b']]).2.1
      (by decide) (by decide) ?_,
    (simplifier_idempotent_c9 (fun _ => 0) 0 _ [['a']] [['b']]).2.2
      (by decide) (by decide) ?_⟩
  · intro n hn hp
    exact absurd hp (hpred n hn)
  · intro n hn hp
    exact absurd hp (hsucc n hn)

/-- Claim C9 counterexample: the empty graph vacuously has no qualifying
node, yet solve_entry_tips raises NameError instead of returning the
graph unchanged: its tips flag is only assigned inside the loop over
graph nodes, which never runs. -/
theorem simplifier_idempotent_c9_cex :
    solve_entry_tips (fun _ => 0) 1 ⟨[], []⟩ [] = .err .nameError ⟨[], []⟩
    ∧ ¬ (solve_entry_tips (fun _ => 0) 1 ⟨[], []⟩ [] = .ok ⟨[], []⟩) := by
  decide

/-- Modelled from the claim wording of C5: a node qualifies for bubble
resolution when it has more than one direct predecessor and some pair of
distinct predecessors has a common ancestor (in a finite acyclic graph a
common ancestor exists exactly when a lowest one does). -/
def qualifiesBubbleB (g : Graph) (n : Node) : Bool :=
  decide (1 < (predecessors g n).length) &&
    (predecessors g n).any (fun i => (predecessors g n).any (fun j =>
      !(decide (i = j)) && !(commonAncestors g i j).isEmpty))

theorem simplify_bubbles_succ (draw : Nat → Nat) (f : Nat) (g : Graph) :
    simplify_bubbles draw (f + 1) g
      = (match scan_bubbles g with
         | .error e => .err e g
         | .ok none => .ok g
         | .ok (some (anc, n)) =>
            match solve_bubble draw g anc n with
            | .ok g2 => simplify_bubbles draw f g2
            | r => r) := rfl

theorem scan_nodes_skip {g : Graph} :
    ∀ (pre : List Node), (∀ m ∈ pre, ¬ (1 < (predecessors g m).length)) →
      ∀ (rest : List Node) (anc noeud : Option Node),
        scan_nodes g (pre ++ rest) false anc noeud
          = scan_nodes g rest false anc noeud := by
  intro pre
  induction pre with
  | nil => intro _ rest anc noeud; rfl
  | cons m pre2 ih =>
    intro h rest anc noeud
    rw [List.cons_append, scan_nodes_cons_eq,
      if_neg (h m (List.mem_cons_self _ _))]
    simp only [Bool.false_eq_true, if_false]
    exact ih (fun m2 h2 => h m2 (List.mem_cons_of_mem _ h2)) rest anc noeud

/-- Claim C5 (amended): when the first node n in scan order with more
than one direct predecessor has exactly two predecessors whose pair has a
lowest common ancestor A, and the node that follows n in scan order (when
one exists) has at most one predecessor, simplify_bubbles resolves
exactly that bubble — it calls solve_bubble with A and n — and re-runs
the entire scan from the beginning on the mutated graph; a full scan that
finds no qualifying node returns the graph unchanged (claim C9).  The
extra hypotheses are forced by the reference scan: the break leaving the
pair loop does not leave the node loop, so a second consecutive
multi-predecessor node would overwrite both the resolved node and the
ancestor, and can even leave None in the ancestor variable, see the
counterexample. -/
theorem simplify_bubbles_c5 (draw : Nat → Nat) (f : Nat) (g : Graph)
    (pre post : List Node) (n p q A : Node)
    (hsplit : g.nodes = pre ++ n :: post)
    (hpre : ∀ m ∈ pre, ¬ (1 < (predecessors g m).length))
    (hn : predecessors g n = [p, q])
    (hlca : lcaE g p q = .ok (some A))
    (hpost : post = [] ∨
      ∃ m rest, post = m :: rest ∧ ¬ (1 < (predecessors g m).length)) :
    scan_bubbles g = .ok (some (some A, n))
    ∧ simplify_bubbles draw (f + 1) g
      = (match solve_bubble draw g (some A) n with
         | .ok g2 => simplify_bubbles draw f g2
         | r => r) := by
  have h1 : ∀ (anc : Option Node), scan_inner g p [q] anc false = .ok (some A, true) := by
    intro anc
    unfold scan_inner
    rw [hlca]
    rfl
  have h2 : ∀ (anc : Option Node), scan_pairs g [p, q] anc false = .ok (some A, true) := by
    intro anc
    unfold scan_pairs
    rw [h1 anc]
    rfl
  have h3 : scan_nodes g post true (some A) (some n) = .ok (some (some A, n)) := by
    rcases hpost with h | ⟨m, rest, hrest, hm⟩
    · rw [h]
      rfl
    · rw [hrest, scan_nodes_cons_eq, if_neg hm]
      rfl
  have hscan : scan_bubbles g = .ok (some (some A, n)) := by
    unfold scan_bubbles
    rw [hsplit, scan_nodes_skip pre hpre, scan_nodes_cons_eq,
      if_pos (show 1 < (predecessors g n).length by
        rw [hn]; exact Nat.one_lt_two),
      hn, h2 none]
    dsimp only
    exact h3
  refine ⟨hscan, ?_⟩
  rw [simplify_bubbles_succ, hscan]

theorem simplify_bubbles_c5_witness :
    scan_bubbles ⟨[['a'], ['p'], ['q'], ['n']],
        [(['a'], ['p'], 1), (['a'], ['q'], 1), (['p'], ['n'], 1), (['q'], ['n'], 1)]⟩
      = .ok (some (some ['a'], ['n']))
    ∧ simplify_bubbles (fun _ => 0) 3 ⟨[['a'], ['p'], ['q'], ['n']],
        [(['a'], ['p'], 1), (['a'], ['q'], 1), (['p'], ['n'], 1), (['q'], ['n'], 1)]⟩
      = (match solve_bubble (fun _ => 0) ⟨[['a'], ['p'], ['q'], ['n']],
          [(['a'], ['p'], 1), (['a'], ['q'], 1), (['p'], ['n'], 1), (['q'], ['n'], 1)]⟩
          (some ['a']) ['n'] with
         | .ok g2 => simplify_bubbles (fun _ => 0) 2 g2
         | r => r) :=
  simplify_bubbles_c5 (fun _ => 0) 2 ⟨[['a'], ['p'], ['q'], ['n']],
      [(['a'], ['p'], 1), (['a'], ['q'], 1), (['p'], ['n'], 1), (['q'], ['n'], 1)]⟩
    [['a'], ['p'], ['q']] [] ['n'] ['p'] ['q'] ['a'] (by rfl) (by decide)
    (by decide) (by decide) (Or.inl rfl)

/-- Claim C5 counterexample: in the graph with nodes in scan order
a, p, q, n, m, u, v and edges a -> p, a -> q, p -> n, q -> n, u -> m,
v -> m, the first qualifying node is n (predecessors p, q with common
ancestor a).  The scan does not stop there: the next node m also has two
predecessors, so noeud_n is overwritten with m, and the last LCA
computation — on the pair (u, v), which has no common ancestor — leaves
None in ancestor_node.  solve_bubble is then called on (None, m) and
nx.all_simple_paths raises NodeNotFound, so no bubble is resolved and no
rescan happens, contradicting the claim that exactly the bubble at the
first qualifying node is resolved. -/
theorem simplify_bubbles_c5_cex :
    qualifiesBubbleB ⟨[['a'], ['p'], ['q'], ['n'], ['m'], ['u'], ['v']],
        [(['a'], ['p'], 1), (['a'], ['q'], 1), (['p'], ['n'], 1), (['q'], ['n'], 1),
         (['u'], ['m'], 1), (['v'], ['m'], 1)]⟩ ['n'] = true
    ∧ (∀ x ∈ ([['a'], ['p'], ['q']] : List Node),
        qualifiesBubbleB ⟨[['a'], ['p'], ['q'], ['n'], ['m'], ['u'], ['v']],
          [(['a'], ['p'], 1), (['a'], ['q'], 1), (['p'], ['n'], 1), (['q'], ['n'], 1),
           (['u'], ['m'], 1), (['v'], ['m'], 1)]⟩ x = false)
    ∧ scan_bubbles ⟨[['a'], ['p'], ['q'], ['n'], ['m'], ['u'], ['v']],
        [(['a'], ['p'], 1), (['a'], ['q'], 1), (['p'], ['n'], 1), (['q'], ['n'], 1),
         (['u'], ['m'], 1), (['v'], ['m'], 1)]⟩ = .ok (some (none, ['m']))
    ∧ simplify_bubbles (fun _ => 0) 5 ⟨[['a'], ['p'], ['q'], ['n'], ['m'], ['u'], ['v']],
        [(['a'], ['p'], 1), (['a'], ['q'], 1), (['p'], ['n'], 1), (['q'], ['n'], 1),
         (['u'], ['m'], 1), (['v'], ['m'], 1)]⟩
      = .err .nodeNotFound ⟨[['a'], ['p'], ['q'], ['n'], ['m'], ['u'], ['v']],
        [(['a'], ['p'], 1), (['a'], ['q'], 1), (['p'], ['n'], 1), (['q'], ['n'], 1),
         (['u'], ['m'], 1), (['v'], ['m'], 1)]⟩ := by
  decide

theorem hasPathE_true {g : Graph} {s n : Node} (hs : s ∈ g.nodes)
    (hn : n ∈ g.nodes)
    (hedges : ∀ e ∈ g.edges, e.1 ∈ g.nodes ∧ e.2.1 ∈ g.nodes)
    (hr : Reach g s n) : hasPathE g s n = .ok true := by
  unfold hasPathE
  rw [if_pos (by simp [hs, hn])]
  rw [reach_reachN hedges hs hr]

theorem path_average_weight_ok {g : Graph} {s t : Node} {p : NPath}
    (hp : p ∈ all_simple_paths g s t) (hst : s ≠ t) :
    ∃ w, path_average_weight g p = .ok w := by
  rcases all_simple_paths_sound hp with ⟨hchain, hhead, hlast⟩
  rcases p with _ | ⟨x, rest⟩
  · cases hhead
  · have hx : x = s := by simpa using hhead
    rcases rest with _ | ⟨y, rest2⟩
    · have hxt : x = t := by simpa using hlast
      exact absurd (hx.symm.trans hxt) hst
    · have hedge : edgeRel g x y := (List.chain'_cons.mp hchain).1
      rcases hedge with ⟨c, hc⟩
      have hmem : (x, y, c) ∈ inducedEdges g (x :: y :: rest2) := by
        apply List.mem_filter.mpr
        exact ⟨hc, by simp⟩
      have hne : (inducedEdges g (x :: y :: rest2)).isEmpty = false := by
        rcases hemp : inducedEdges g (x :: y :: rest2) with _ | ⟨e0, es⟩
        · rw [hemp] at hmem; cases hmem
        · rfl
      unfold path_average_weight
      simp only [hne, Bool.false_eq_true, if_false]
      exact ⟨_, rfl⟩

theorem collect_entry_single {g : Graph} {n s0 : Node}
    (hedges : ∀ e ∈ g.edges, e.1 ∈ g.nodes ∧ e.2.1 ∈ g.nodes)
    (hn : n ∈ g.nodes) (hs0 : s0 ∈ g.nodes) (hs0n : s0 ≠ n)
    (hr : Reach g s0 n) :
    ∀ (starts : List Node), starts.Nodup → s0 ∈ starts →
      (∀ s ∈ starts, s ∈ g.nodes) →
      (∀ s ∈ starts, Reach g s n → s = s0) →
      ∃ p0 w, collect_entry g n starts = .ok ([p0], [p0.length], [w]) := by
  intro starts
  induction starts with
  | nil => intro _ hmem; cases hmem
  | cons s rest ih =>
    intro hnd hmem hsub huni
    by_cases hss : s = s0
    · subst hss
      have htrue := hasPathE_true hs0 hn hedges hr
      have hasp_ne : all_simple_paths g s n ≠ [] :=
        all_simple_paths_nonempty hedges hs0 hs0n hr
      rcases hasp : all_simple_paths g s n with _ | ⟨p0, ps2⟩
      · exact absurd hasp hasp_ne
      · have haspE : all_simple_pathsE g s n = .ok (p0 :: ps2) := by
          unfold all_simple_pathsE
          rw [if_pos (by simp [hs0, hn]), hasp]
        have hp0 : p0 ∈ all_simple_paths g s n := by
          rw [hasp]; exact List.mem_cons_self _ _
        rcases path_average_weight_ok hp0 hs0n with ⟨w, hw⟩
        have hrest : collect_entry g n rest = .ok ([], [], []) := by
          apply collect_entry_empty hn
          intro s2 h2
          refine ⟨hsub s2 (List.mem_cons_of_mem _ h2), ?_⟩
          intro hr2
          have := huni s2 (List.mem_cons_of_mem _ h2) hr2
          subst this
          exact (List.nodup_cons.mp hnd).1 h2
        refine ⟨p0, w, ?_⟩
        unfold collect_entry
        rw [htrue, haspE]
        dsimp only
        rw [hw]
        dsimp only
        rw [hrest]
    · have hnor : ¬ Reach g s n := by
        intro hr2
        exact hss (huni s (List.mem_cons_self _ _) hr2)
      have hfalse := hasPathE_false (hsub s (List.mem_cons_self _ _)) hn hnor
      have hmem2 : s0 ∈ rest := by
        rcases List.mem_cons.mp hmem with h | h
        · exact absurd h.symm hss
        · exact h
      rcases ih (List.nodup_cons.mp hnd).2 hmem2
        (fun s2 h2 => hsub s2 (List.mem_cons_of_mem _ h2))
        (fun s2 h2 => huni s2 (List.mem_cons_of_mem _ h2)) with ⟨p0, w, hcol⟩
      refine ⟨p0, w, ?_⟩
      unfold collect_entry
      rw [hfalse]
      exact hcol

theorem collect_out_single {g : Graph} {n e0 : Node}
    (hedges : ∀ e ∈ g.edges, e.1 ∈ g.nodes ∧ e.2.1 ∈ g.nodes)
    (hn : n ∈ g.nodes) (he0 : e0 ∈ g.nodes) (hne0 : n ≠ e0)
    (hr : Reach g n e0) :
    ∀ (ends : List Node), ends.Nodup → e0 ∈ ends →
      (∀ s ∈ ends, s ∈ g.nodes) →
      (∀ s ∈ ends, Reach g n s → s = e0) →
      ∃ p0 w, collect_out g n ends = .ok ([p0], [p0.length], [w]) := by
  intro ends
  induction ends with
  | nil => intro _ hmem; cases hmem
  | cons s rest ih =>
    intro hnd hmem hsub huni
    by_cases hss : s = e0
    · subst hss
      have htrue := hasPathE_true hn he0 hedges hr
      have hasp_ne : all_simple_paths g n s ≠ [] :=
        all_simple_paths_nonempty hedges hn hne0 hr
      rcases hasp : all_simple_paths g n s with _ | ⟨p0, ps2⟩
      · exact absurd hasp hasp_ne
      · have haspE : all_simple_pathsE g n s = .ok (p0 :: ps2) := by
          unfold all_simple_pathsE
          rw [if_pos (by simp [hn, he0]), hasp]
        have hp0 : p0 ∈ all_simple_paths g n s := by
          rw [hasp]; exact List.mem_cons_self _ _
        rcases path_average_weight_ok hp0 hne0 with ⟨w, hw⟩
        have hrest : collect_out g n rest = .ok ([], [], []) := by
          apply collect_out_empty hn
          intro s2 h2
          refine ⟨hsub s2 (List.mem_cons_of_mem _ h2), ?_⟩
          intro hr2
          have := huni s2 (List.mem_cons_of_mem _ h2) hr2
          subst this
          exact (List.nodup_cons.mp hnd).1 h2
        refine ⟨p0, w, ?_⟩
        unfold collect_out
        rw [htrue, haspE]
        dsimp only
        rw [hw]
        dsimp only
        rw [hrest]
    · have hnor : ¬ Reach g n s := by
        intro hr2
        exact hss (huni s (List.mem_cons_self _ _) hr2)
      have hfalse := hasPathE_false hn (hsub s (List.mem_cons_self _ _)) hnor
      have hmem2 : e0 ∈ rest := by
        rcases List.mem_cons.mp hmem with h | h
        · exact absurd h.symm hss
        · exact h
      rcases ih (List.nodup_cons.mp hnd).2 hmem2
        (fun s2 h2 => hsub s2 (List.mem_cons_of_mem _ h2))
        (fun s2 h2 => huni s2 (List.mem_cons_of_mem _ h2)) with ⟨p0, w, hcol⟩
      refine ⟨p0, w, ?_⟩
      unfold collect_out
      rw [hfalse]
      exact hcol

theorem entry_scan_cons_eq (g : Graph) (starts : List Node) (n : Node)
    (rest : List Node) :
    entry_scan g starts (n :: rest)
      = if 1 < (predecessors g n).length then
          match collect_entry g n starts with
          | .error e => .error e
          | .ok (ps, ls, ws) =>
            if ps.isEmpty then entry_scan g starts rest
            else .ok (some (ps, ls, ws))
        else entry_scan g starts rest := rfl

theorem out_scan_cons_eq (g : Graph) (ends : List Node) (n : Node)
    (rest : List Node) :
    out_scan g ends (n :: rest)
      = if 1 < (successors g n).length then
          match collect_out g n ends with
          | .error e => .error e
          | .ok (ps, ls, ws) =>
            if ps.isEmpty then out_scan g ends rest
            else .ok (some (ps, ls, ws))
        else out_scan g ends rest := rfl

theorem entry_scan_skip {g : Graph} {starts : List Node}
    (hstarts : ∀ s ∈ starts, s ∈ g.nodes) :
    ∀ (l : List Node), (∀ m ∈ l, m ∈ g.nodes) →
      (∀ m ∈ l, 1 < (predecessors g m).length → ∀ s ∈ starts, ¬ Reach g s m) →
      ∀ (rest : List Node),
        entry_scan g starts (l ++ rest) = entry_scan g starts rest := by
  intro l
  induction l with
  | nil => intro _ _ rest; rfl
  | cons m l2 ih =>
    intro hmem hq rest
    rw [List.cons_append, entry_scan_cons_eq]
    by_cases hp : 1 < (predecessors g m).length
    · rw [if_pos hp]
      have hc := collect_entry_empty (hmem m (List.mem_cons_self _ _)) starts
        (fun s hs => ⟨hstarts s hs, hq m (List.mem_cons_self _ _) hp s hs⟩)
      rw [hc]
      dsimp only
      rw [if_pos List.isEmpty_nil]
      exact ih (fun m2 h2 => hmem m2 (List.mem_cons_of_mem _ h2))
        (fun m2 h2 => hq m2 (List.mem_cons_of_mem _ h2)) rest
    · rw [if_neg hp]
      exact ih (fun m2 h2 => hmem m2 (List.mem_cons_of_mem _ h2))
        (fun m2 h2 => hq m2 (List.mem_cons_of_mem _ h2)) rest

theorem out_scan_skip {g : Graph} {ends : List Node}
    (hends : ∀ s ∈ ends, s ∈ g.nodes) :
    ∀ (l : List Node), (∀ m ∈ l, m ∈ g.nodes) →
      (∀ m ∈ l, 1 < (successors g m).length → ∀ s ∈ ends, ¬ Reach g m s) →
      ∀ (rest : List Node),
        out_scan g ends (l ++ rest) = out_scan g ends rest := by
  intro l
  induction l with
  | nil => intro _ _ rest; rfl
  | cons m l2 ih =>
    intro hmem hq rest
    rw [List.cons_append, out_scan_cons_eq]
    by_cases hp : 1 < (successors g m).length
    · rw [if_pos hp]
      have hc := collect_out_empty (hmem m (List.mem_cons_self _ _)) ends
        (fun s hs => ⟨hends s hs, hq m (List.mem_cons_self _ _) hp s hs⟩)
      rw [hc]
      dsimp only
      rw [if_pos List.isEmpty_nil]
      exact ih (fun m2 h2 => hmem m2 (List.mem_cons_of_mem _ h2))
        (fun m2 h2 => hq m2 (List.mem_cons_of_mem _ h2)) rest
    · rw [if_neg hp]
      exact ih (fun m2 h2 => hmem m2 (List.mem_cons_of_mem _ h2))
        (fun m2 h2 => hq m2 (List.mem_cons_of_mem _ h2)) rest

theorem solve_entry_tips_succ (draw : Nat → Nat) (f : Nat) (g : Graph)
    (starts : List Node) :
    solve_entry_tips draw (f + 1) g starts
      = (match g.nodes with
         | [] => .err .nameError g
         | _ :: _ =>
           match entry_scan g starts g.nodes with
           | .error e => .err e g
           | .ok none => .ok g
           | .ok (some (ps, ls, ws)) =>
             match select_best_path draw g ps ls ws true false with
             | .ok g2 => solve_entry_tips draw f g2 starts
             | r => r) := rfl

theorem solve_out_tips_succ (draw : Nat → Nat) (f : Nat) (g : Graph)
    (ends : List Node) :
    solve_out_tips draw (f + 1) g ends
      = (match g.nodes with
         | [] => .err .nameError g
         | _ :: _ =>
           match out_scan g ends g.nodes with
           | .error e => .err e g
           | .ok none => .ok g
           | .ok (some (ps, ls, ws)) =>
             match select_best_path draw g ps ls ws false true with
             | .ok g2 => solve_out_tips draw f g2 ends
             | r => r) := rfl

/-- Claim C10: whenever solve_entry_tips stops its scan at a node n with
more than one direct predecessor but exactly one starting node reaches n
(so exactly one candidate path is recorded), the call raises
StatisticsError before any node or edge is removed — select_best_path
computes a sample standard deviation over the singleton weight list — and
the escaping error carries the unmodified graph; symmetrically for
solve_out_tips with successors and ending nodes. -/
theorem tips_single_candidate_c10 :
    (∀ (draw : Nat → Nat) (f : Nat) (g : Graph) (starts pre post : List Node)
        (n s0 : Node),
      g.WF →
      (∀ s ∈ starts, s ∈ g.nodes ∧ predecessors g s = []) →
      starts.Nodup →
      g.nodes = pre ++ n :: post →
      1 < (predecessors g n).length →
      (∀ m ∈ pre, 1 < (predecessors g m).length → ∀ s ∈ starts, ¬ Reach g s m) →
      s0 ∈ starts → Reach g s0 n →
      (∀ s ∈ starts, Reach g s n → s = s0) →
      solve_entry_tips draw (f + 1) g starts = .err .statisticsError g)
    ∧ (∀ (draw : Nat → Nat) (f : Nat) (g : Graph) (ends pre post : List Node)
        (n e0 : Node),
      g.WF →
      (∀ s ∈ ends, s ∈ g.nodes ∧ successors g s = []) →
      ends.Nodup →
      g.nodes = pre ++ n :: post →
      1 < (successors g n).length →
      (∀ m ∈ pre, 1 < (successors g m).length → ∀ s ∈ ends, ¬ Reach g m s) →
      e0 ∈ ends → Reach g n e0 →
      (∀ s ∈ ends, Reach g n s → s = e0) →
      solve_out_tips draw (f + 1) g ends = .err .statisticsError g) := by
  constructor
  · intro draw f g starts pre post n s0 hWF hstarts hnd hsplit hq hfirst hs0 hr huni
    have hedges := hWF.2.1
    have hn : n ∈ g.nodes := by
      rw [hsplit]
      exact List.mem_append_right _ (List.mem_cons_self _ _)
    have hs0mem : s0 ∈ g.nodes := (hstarts s0 hs0).1
    have hs0n : s0 ≠ n := by
      intro h
      rw [← h, (hstarts s0 hs0).2] at hq
      simp at hq
    rcases collect_entry_single hedges hn hs0mem hs0n hr starts hnd hs0
      (fun s hs => (hstarts s hs).1) huni with ⟨p0, w, hcol⟩
    have hscan : entry_scan g starts g.nodes
        = .ok (some ([p0], [p0.length], [w])) := by
      rw [hsplit, entry_scan_skip (fun s hs => (hstarts s hs).1) pre
        (by intro m hm; rw [hsplit]; exact List.mem_append_left _ hm) hfirst
        (n :: post)]
      unfold entry_scan
      rw [if_pos hq, hcol]
      rfl
    cases hgn : g.nodes with
    | nil => rw [hgn] at hsplit; simp at hsplit
    | cons n0 r0 =>
      rw [solve_entry_tips_succ, hgn]
      dsimp only
      rw [← hgn, hscan]
      rfl
  · intro draw f g ends pre post n e0 hWF hends hnd hsplit hq hfirst he0 hr huni
    have hedges := hWF.2.1
    have hn : n ∈ g.nodes := by
      rw [hsplit]
      exact List.mem_append_right _ (List.mem_cons_self _ _)
    have he0mem : e0 ∈ g.nodes := (hends e0 he0).1
    have hne0 : n ≠ e0 := by
      intro h
      rw [h, (hends e0 he0).2] at hq
      simp at hq
    rcases collect_out_single hedges hn he0mem hne0 hr ends hnd he0
      (fun s hs => (hends s hs).1) huni with ⟨p0, w, hcol⟩
    have hscan : out_scan g ends g.nodes
        = .ok (some ([p0], [p0.length], [w])) := by
      rw [hsplit, out_scan_skip (fun s hs => (hends s hs).1) pre
        (by intro m hm; rw [hsplit]; exact List.mem_append_left _ hm) hfirst
        (n :: post)]
      unfold out_scan
      rw [if_pos hq, hcol]
      rfl
    cases hgn : g.nodes with
    | nil => rw [hgn] at hsplit; simp at hsplit
    | cons n0 r0 =>
      rw [solve_out_tips_succ, hgn]
      dsimp only
      rw [← hgn, hscan]
      rfl

theorem tips_single_candidate_c10_witness :
    solve_entry_tips (fun _ => 0) 1
        ⟨[['s'], ['a'], ['b'], ['n']],
         [(['s'], ['a'], 1), (['a'], ['n'], 1), (['b'], ['n'], 1)]⟩ [['s']]
      = .err .statisticsError
        ⟨[['s'], ['a'], ['b'], ['n']],
         [(['s'], ['a'], 1), (['a'], ['n'], 1), (['b'], ['n'], 1)]⟩
    ∧ solve_out_tips (fun _ => 0) 1
        ⟨[['n'], ['a'], ['b'], ['e']],
         [(['n'], ['a'], 1), (['n'], ['b'], 1), (['a'], ['e'], 1)]⟩ [['e']]
      = .err .statisticsError
        ⟨[['n'], ['a'], ['b'], ['e']],
         [(['n'], ['a'], 1), (['n'], ['b'], 1), (['a'], ['e'], 1)]⟩ := by
  constructor
  · apply tips_single_candidate_c10.1 (fun _ => 0) 0 _ [['s']]
      [['s'], ['a'], ['b']] [] ['n'] ['s']
    · decide
    · decide
    · decide
    · rfl
    · decide
    · intro m hm hp s hs hr
      exfalso
      rcases List.mem_cons.mp hm with h | h
      · subst h; exact absurd hp (by decide)
      · rcases List.mem_cons.mp h with h2 | h2
        · subst h2; exact absurd hp (by decide)
        · rcases List.mem_cons.mp h2 with h3 | h3
          · subst h3; exact absurd hp (by decide)
          · cases h3
    · decide
    · exact Relation.ReflTransGen.head
        (show edgeRel ⟨[['s'], ['a'], ['b'], ['n']],
          [(['s'], ['a'], 1), (['a'], ['n'], 1), (['b'], ['n'], 1)]⟩ ['s'] ['a']
          from ⟨1, by decide⟩)
        (Relation.ReflTransGen.single
          (show edgeRel ⟨[['s'], ['a'], ['b'], ['n']],
            [(['s'], ['a'], 1), (['a'], ['n'], 1), (['b'], ['n'], 1)]⟩ ['a'] ['n']
            from ⟨1, by decide⟩))
    · intro s hs _
      simpa using hs
  · apply tips_single_candidate_c10.2 (fun _ => 0) 0 _ [['e']]
      [] [['a'], ['b'], ['e']] ['n'] ['e']
    · decide
    · decide
    · decide
    · rfl
    · decide
    · intro m hm
      cases hm
    · decide
    · exact Relation.ReflTransGen.head
        (show edgeRel ⟨[['n'], ['a'], ['b'], ['e']],
          [(['n'], ['a'], 1), (['n'], ['b'], 1), (['a'], ['e'], 1)]⟩ ['n'] ['a']
          from ⟨1, by decide⟩)
        (Relation.ReflTransGen.single
          (show edgeRel ⟨[['n'], ['a'], ['b'], ['e']],
            [(['n'], ['a'], 1), (['n'], ['b'], 1), (['a'], ['e'], 1)]⟩ ['a'] ['e']
            from ⟨1, by decide⟩))
    · intro s hs _
      simpa using hs

end DeBruijn
